import Mathlib

/-!
Verification of the `chat` repository (server and client of a small text-chat
service) against its natural-language specification.

Byte strings are modelled as `List Nat` (each element a byte value).  Python's
`int.to_bytes(3, 'big')`, which raises `OverflowError` when the integer does
not fit, is modelled with `Option`.  All definitions are shallow embeddings of
the corresponding Python functions in `src/server/server/*.py` and
`src/client/client/message.py`; comments point to the function each
definition embeds.
-/

namespace Chat

/-- Big-endian value of a byte string (Python `int.from_bytes(bs, 'big')`). -/
def fromBytesBE (bs : List Nat) : Nat :=
  bs.foldl (fun a b => a * 256 + b) 0

/-- The three bytes of `n.to_bytes(3, 'big')`; meaningful for `n < 2^24`. -/
def toBytes3Raw (n : Nat) : List Nat :=
  [n / 65536 % 256, n / 256 % 256, n % 256]

/-- Python `n.to_bytes(3, 'big')`: raises `OverflowError` (modelled `none`)
when `n` does not fit in three bytes. -/
def toBytes3 (n : Nat) : Option (List Nat) :=
  if n < 2 ^ 24 then some (toBytes3Raw n) else none

namespace Server

/-- `server/message.py` `create_message(content, msg_type)`:
`len(content)+1` as a 3-byte big-endian prefix, then the content, then the
type bytes.  `none` models the `OverflowError` raised by `to_bytes`. -/
def create_message (content : List Nat) (msg_type : List Nat) : Option (List Nat) :=
  (toBytes3 (content.length + 1)).map (fun lenBytes => lenBytes ++ content ++ msg_type)

/-- `server/message.py` `read_type(message)`: returns
`(message[-1:], message[:-1])`. -/
def read_type (message : List Nat) : List Nat × List Nat :=
  (message.drop (message.length - 1), message.take (message.length - 1))

end Server

theorem fromBytesBE_toBytes3Raw (n : Nat) (h : n < 2 ^ 24) :
    fromBytesBE (toBytes3Raw n) = n := by
  simp only [fromBytesBE, toBytes3Raw, List.foldl]
  have h1 : n / 65536 % 256 = n / 65536 := by
    apply Nat.mod_eq_of_lt
    apply Nat.div_lt_of_lt_mul
    omega
  rw [h1]
  omega

theorem read_type_append (body : List Nat) (t : Nat) :
    Server.read_type (body ++ [t]) = ([t], body) := by
  have h : (body ++ [t]).length - 1 = body.length := by simp
  simp only [Server.read_type, h, List.drop_left, List.take_left]

/-- C8 counterexample: for a body of `2^24 - 1` bytes the length conversion
overflows and `create_message` produces no frame at all, so the codec does not
round-trip for *every* body byte string. -/
theorem create_message_overflow_no_frame :
    Server.create_message (List.replicate (2 ^ 24 - 1) 0) [0] = none := by
  simp only [Server.create_message, toBytes3, List.length_replicate]
  norm_num

/-- C8 (amended): for every body whose length satisfies
`len(body) + 1 < 2^24` and every one-byte type tag, `create_message`
produces a frame made of a 3-byte big-endian prefix whose value is
`len(body)+1`, then the body, then the type byte, and `read_type` applied to
the prefix-stripped message returns exactly `(type, body)`. -/
theorem server_codec_roundtrip (body : List Nat) (t : Nat)
    (h : body.length + 1 < 2 ^ 24) :
    ∃ pre, Server.create_message body [t] = some (pre ++ (body ++ [t])) ∧
      pre.length = 3 ∧ fromBytesBE pre = body.length + 1 ∧
      Server.read_type (body ++ [t]) = ([t], body) := by
  refine ⟨toBytes3Raw (body.length + 1), ?_, rfl, fromBytesBE_toBytes3Raw _ h, read_type_append body t⟩
  simp only [Server.create_message, toBytes3, if_pos h, Option.map_some', List.append_assoc]

/-- Witness for `server_codec_roundtrip` at a concrete body and type. -/
theorem server_codec_roundtrip_witness :
    ∃ pre, Server.create_message [104, 105] [2] = some (pre ++ ([104, 105] ++ [2])) ∧
      pre.length = 3 ∧ fromBytesBE pre = [104, 105].length + 1 ∧
      Server.read_type ([104, 105] ++ [2]) = ([2], [104, 105]) :=
  server_codec_roundtrip [104, 105] 2 (by norm_num)

/-- C10: the server codec's `create_message` succeeds exactly for content of
length at most `2^24 - 2` bytes; longer content makes the length conversion
fail instead of producing a frame. -/
theorem create_message_length_bound (content : List Nat) (msg_type : List Nat) :
    (Server.create_message content msg_type).isSome ↔ content.length ≤ 2 ^ 24 - 2 := by
  unfold Server.create_message toBytes3
  by_cases h : content.length + 1 < 2 ^ 24
  · rw [if_pos h]
    simp only [Option.map_some', Option.isSome_some, true_iff]
    omega
  · rw [if_neg h]
    simp only [Option.map_none', Option.isSome_none, Bool.false_eq_true, false_iff, not_le]
    omega

/-! ### Stream buffer (`server/server.py`, class `Buffer`) -/

/-- `server/server.py` class `Buffer`: a deque of byte chunks plus a cached
byte count (instance attribute `length`). -/
structure Buffer where
  buffer : List (List Nat)
  length : Nat
deriving DecidableEq, Repr

/-- `Buffer.__init__(init_data=b'')`: the deque starts as `deque((init_data,))`. -/
def Buffer.init (initData : List Nat) : Buffer :=
  ⟨[initData], initData.length⟩

/-- `Buffer.write(data)`: append the chunk and grow `length`; no-op on an
empty chunk. -/
def Buffer.write (b : Buffer) (data : List Nat) : Buffer :=
  if data = [] then b else ⟨b.buffer ++ [data], b.length + data.length⟩

/-- `Buffer.getvalue()`: `b''.join(self.buffer)`. -/
def Buffer.getvalue (b : Buffer) : List Nat :=
  b.buffer.flatten

/-- The loop body of `Buffer.__gather_chunks`: pop chunks from the deque while
the gathered length is below `num`, skipping empty chunks.  Returns the
gathered chunks, their total length, and the remaining deque. -/
def gatherAux (num : Nat) : List (List Nat) → Nat → List (List Nat) × Nat × List (List Nat)
  | [], lenSoFar => ([], lenSoFar, [])
  | c :: rest, lenSoFar =>
    if num ≤ lenSoFar then ([], lenSoFar, c :: rest)
    else if c = [] then gatherAux num rest lenSoFar
    else
      let r := gatherAux num rest (lenSoFar + c.length)
      (c :: r.1, r.2.1, r.2.2)

/-- `Buffer.__gather_chunks(num)`: pops chunks from the deque (the cached
`length` attribute is not touched here). -/
def Buffer.gather_chunks (b : Buffer) (num : Nat) : (List (List Nat) × Nat) × Buffer :=
  let r := gatherAux num b.buffer 0
  ((r.1, r.2.1), ⟨r.2.2, b.length⟩)

/-- `Buffer.__cut(chunk, length)`: `(chunk, b'')` when `length == 0`, else
`(chunk[:-length], chunk[-length:])`. -/
def Buffer.cut (chunk : List Nat) (len : Nat) : List Nat × List Nat :=
  if len = 0 then (chunk, [])
  else (chunk.take (chunk.length - len), chunk.drop (chunk.length - len))

/-- `Buffer.read(num)`: gather enough chunks, cut the tail of the last chunk
back onto the deque when too much was gathered, and decrease `length` by the
number of bytes returned. -/
def Buffer.read (b : Buffer) (num : Nat) : List Nat × Buffer :=
  let g := b.gather_chunks num
  let chunks := g.1.1
  let chunksLen := g.1.2
  if num < chunksLen then
    let last := chunks.getLastD []
    let c := Buffer.cut last (chunksLen - num)
    let readData := (chunks.dropLast ++ [c.1]).flatten
    (readData, ⟨c.2 :: g.2.buffer, g.2.length - readData.length⟩)
  else
    let readData := chunks.flatten
    (readData, ⟨g.2.buffer, g.2.length - readData.length⟩)

/-- `Buffer.peek(num)`: gather chunks, push their concatenation back on the
front of the deque (coalescing them), and return the first `num` bytes;
`length` is unchanged. -/
def Buffer.peek (b : Buffer) (num : Nat) : List Nat × Buffer :=
  let g := b.gather_chunks num
  let readData := g.1.1.flatten
  (readData.take num, ⟨readData :: g.2.buffer, g.2.length⟩)

/-- Class invariant of `Buffer`: the cached `length` equals the number of
buffered bytes. -/
def Buffer.wf (b : Buffer) : Prop :=
  b.length = b.getvalue.length

theorem gatherAux_flatten (num : Nat) :
    ∀ (dq : List (List Nat)) (ls : Nat),
      (gatherAux num dq ls).1.flatten ++ (gatherAux num dq ls).2.2.flatten = dq.flatten
  | [], ls => by simp [gatherAux]
  | c :: rest, ls => by
    rw [gatherAux]
    by_cases h1 : num ≤ ls
    · simp [h1]
    · rw [if_neg h1]
      by_cases h2 : c = []
      · rw [if_pos h2, h2]
        simpa using gatherAux_flatten num rest ls
      · rw [if_neg h2]
        have ih := gatherAux_flatten num rest (ls + c.length)
        simp only [List.flatten_cons, List.append_assoc, ih]

theorem gatherAux_len (num : Nat) :
    ∀ (dq : List (List Nat)) (ls : Nat),
      (gatherAux num dq ls).2.1 = ls + (gatherAux num dq ls).1.flatten.length
  | [], ls => by simp [gatherAux]
  | c :: rest, ls => by
    rw [gatherAux]
    by_cases h1 : num ≤ ls
    · simp [h1]
    · rw [if_neg h1]
      by_cases h2 : c = []
      · rw [if_pos h2]
        exact gatherAux_len num rest ls
      · rw [if_neg h2]
        have ih := gatherAux_len num rest (ls + c.length)
        simp only [List.flatten_cons, List.length_append, ih]
        omega

theorem gatherAux_stop (num : Nat) :
    ∀ (dq : List (List Nat)) (ls : Nat),
      (gatherAux num dq ls).2.2 ≠ [] → num ≤ (gatherAux num dq ls).2.1
  | [], ls => by simp [gatherAux]
  | c :: rest, ls => by
    rw [gatherAux]
    by_cases h1 : num ≤ ls
    · simp only [if_pos h1]
      intro _
      have hlen := gatherAux_len num (c :: rest) ls
      omega
    · rw [if_neg h1]
      by_cases h2 : c = []
      · rw [if_pos h2]
        exact gatherAux_stop num rest ls
      · rw [if_neg h2]
        exact gatherAux_stop num rest (ls + c.length)

theorem gatherAux_minimal (num : Nat) :
    ∀ (dq : List (List Nat)) (ls : Nat),
      (gatherAux num dq ls).1 ≠ [] →
        ls + (gatherAux num dq ls).1.dropLast.flatten.length < num
  | [], ls => by simp [gatherAux]
  | c :: rest, ls => by
    rw [gatherAux]
    by_cases h1 : num ≤ ls
    · simp [h1]
    · rw [if_neg h1]
      by_cases h2 : c = []
      · rw [if_pos h2]
        exact gatherAux_minimal num rest ls
      · rw [if_neg h2]
        intro _
        by_cases h3 : (gatherAux num rest (ls + c.length)).1 = []
        · simp only [h3, List.dropLast_single, List.flatten_nil, List.length_nil]
          omega
        · have ih := gatherAux_minimal num rest (ls + c.length) h3
          rw [List.dropLast_cons_of_ne_nil h3]
          simp only [List.flatten_cons, List.length_append]
          omega

theorem dropLast_append_getLastD {α : Type} (l : List α) (d : α) (h : l ≠ []) :
    l.dropLast ++ [l.getLastD d] = l := by
  rw [List.getLastD_eq_getLast?, List.getLast?_eq_getLast l h, Option.getD_some]
  exact List.dropLast_append_getLast h

theorem Buffer.init_wf (d : List Nat) : (Buffer.init d).wf := by
  simp [Buffer.init, Buffer.wf, Buffer.getvalue]

theorem Buffer.write_getvalue (b : Buffer) (d : List Nat) :
    (b.write d).getvalue = b.getvalue ++ d := by
  unfold Buffer.write
  by_cases hd : d = []
  · rw [if_pos hd, hd, List.append_nil]
  · rw [if_neg hd]
    simp [Buffer.getvalue]

theorem Buffer.write_length (b : Buffer) (d : List Nat) :
    (b.write d).length = b.length + d.length := by
  unfold Buffer.write
  by_cases hd : d = []
  · rw [if_pos hd, hd]
    simp
  · rw [if_neg hd]

theorem Buffer.write_wf (b : Buffer) (d : List Nat) (h : b.wf) : (b.write d).wf := by
  unfold Buffer.wf
  rw [Buffer.write_getvalue, Buffer.write_length, List.length_append, h]

theorem take_append2 {α : Type} (D M R : List α) (n : Nat) (h1 : D.length ≤ n)
    (h2 : n - D.length ≤ M.length) :
    (D ++ (M ++ R)).take n = D ++ M.take (n - D.length) := by
  rw [List.take_append_eq_append_take, List.take_append_eq_append_take,
    List.take_of_length_le h1, Nat.sub_eq_zero_of_le h2, List.take_zero, List.append_nil]

theorem drop_append2 {α : Type} (D M R : List α) (n : Nat) (h1 : D.length ≤ n)
    (h2 : n - D.length ≤ M.length) :
    (D ++ (M ++ R)).drop n = M.drop (n - D.length) ++ R := by
  rw [List.drop_append_eq_append_drop, List.drop_append_eq_append_drop,
    List.drop_of_length_le h1, Nat.sub_eq_zero_of_le h2, List.drop_zero, List.nil_append]

theorem Buffer.read_spec (b : Buffer) (num : Nat) (h : b.wf) :
    (b.read num).1 = b.getvalue.take num ∧
    (b.read num).2.getvalue = b.getvalue.drop num ∧
    (b.read num).2.length = b.length - num := by
  have hJR := gatherAux_flatten num b.buffer 0
  have hlen := gatherAux_len num b.buffer 0
  have hstop := gatherAux_stop num b.buffer 0
  have hmin := gatherAux_minimal num b.buffer 0
  rw [Nat.zero_add] at hlen hmin
  rcases hgA : gatherAux num b.buffer 0 with ⟨chunks, total, rest⟩
  rw [hgA] at hJR hlen hstop hmin
  dsimp only at hJR hlen hstop hmin
  have hgvflat : b.getvalue = chunks.flatten ++ rest.flatten := hJR.symm
  simp only [Buffer.read, Buffer.gather_chunks, Buffer.cut, hgA]
  by_cases hc : num < total
  · rw [if_pos hc]
    have hne : chunks ≠ [] := by
      intro hnil
      rw [hnil] at hlen
      simp only [List.flatten_nil, List.length_nil] at hlen
      omega
    have hdec := dropLast_append_getLastD chunks [] hne
    have hmin' := hmin hne
    have hJdec : chunks.flatten = chunks.dropLast.flatten ++ chunks.getLastD [] := by
      conv_lhs => rw [← hdec]
      simp
    have htot : total = chunks.dropLast.flatten.length + (chunks.getLastD []).length := by
      rw [hlen, hJdec, List.length_append]
    have hgv : b.getvalue =
        chunks.dropLast.flatten ++ (chunks.getLastD [] ++ rest.flatten) := by
      rw [hgvflat, hJdec, List.append_assoc]
    have hcut0 : ¬ total - num = 0 := by omega
    rw [if_neg hcut0]
    have hk : (chunks.getLastD []).length - (total - num) =
        num - chunks.dropLast.flatten.length := by omega
    rw [hk]
    have hnumlt : num - chunks.dropLast.flatten.length < (chunks.getLastD []).length := by
      omega
    have hreadflat : (chunks.dropLast ++
        [(chunks.getLastD []).take (num - chunks.dropLast.flatten.length)]).flatten
        = chunks.dropLast.flatten ++
          (chunks.getLastD []).take (num - chunks.dropLast.flatten.length) := by
      simp
    rw [hreadflat]
    have hreadlen : (chunks.dropLast.flatten ++
        (chunks.getLastD []).take (num - chunks.dropLast.flatten.length)).length = num := by
      rw [List.length_append, List.length_take]
      omega
    refine ⟨?_, ?_, ?_⟩
    · show chunks.dropLast.flatten ++
          (chunks.getLastD []).take (num - chunks.dropLast.flatten.length) =
          b.getvalue.take num
      rw [hgv, take_append2 _ _ _ _ (by omega) (by omega)]
    · show ((chunks.getLastD []).drop (num - chunks.dropLast.flatten.length) ::
          rest).flatten = b.getvalue.drop num
      rw [List.flatten_cons, hgv, drop_append2 _ _ _ _ (by omega) (by omega)]
    · show b.length - (chunks.dropLast.flatten ++
          (chunks.getLastD []).take (num - chunks.dropLast.flatten.length)).length =
          b.length - num
      rw [hreadlen]
  · rw [if_neg hc]
    have htotle : total ≤ num := by omega
    have hglen : b.getvalue.length = total + rest.flatten.length := by
      rw [hgvflat, List.length_append, hlen]
    refine ⟨?_, ?_, ?_⟩
    · by_cases hrest : rest = []
      · rw [hgvflat, hrest]
        simp only [List.flatten_nil, List.append_nil]
        rw [List.take_of_length_le (by omega)]
      · have hnum : num = total := by
          have := hstop hrest
          omega
        rw [hgvflat, hnum, hlen, List.take_left]
    · show rest.flatten = _
      by_cases hrest : rest = []
      · rw [hgvflat, hrest]
        simp only [List.flatten_nil, List.append_nil]
        rw [List.drop_of_length_le (by omega)]
      · have hnum : num = total := by
          have := hstop hrest
          omega
        rw [hgvflat, hnum, hlen, List.drop_left]
    · show b.length - chunks.flatten.length = b.length - num
      rw [Buffer.wf] at h
      by_cases hrest : rest = []
      · rw [hrest] at hglen
        simp only [List.flatten_nil, List.length_nil] at hglen
        omega
      · have hnum : num = total := by
          have := hstop hrest
          omega
        omega

theorem Buffer.read_wf (b : Buffer) (num : Nat) (h : b.wf) : (b.read num).2.wf := by
  have hs := Buffer.read_spec b num h
  rw [Buffer.wf, hs.2.1, hs.2.2, List.length_drop, h]

theorem Buffer.peek_spec (b : Buffer) (num : Nat) :
    (b.peek num).1 = b.getvalue.take num ∧
    (b.peek num).2.getvalue = b.getvalue ∧
    (b.peek num).2.length = b.length := by
  have hJR := gatherAux_flatten num b.buffer 0
  have hlen := gatherAux_len num b.buffer 0
  have hstop := gatherAux_stop num b.buffer 0
  rw [Nat.zero_add] at hlen
  rcases hgA : gatherAux num b.buffer 0 with ⟨chunks, total, rest⟩
  rw [hgA] at hJR hlen hstop
  dsimp only at hJR hlen hstop
  have hgvflat : b.getvalue = chunks.flatten ++ rest.flatten := hJR.symm
  simp only [Buffer.peek, Buffer.gather_chunks, hgA]
  refine ⟨?_, ?_, by trivial⟩
  · show chunks.flatten.take num = b.getvalue.take num
    rw [hgvflat, List.take_append_eq_append_take]
    by_cases hle : num ≤ chunks.flatten.length
    · rw [Nat.sub_eq_zero_of_le (by omega), List.take_zero, List.append_nil]
    · by_cases hrest : rest = []
      · rw [hrest]
        simp
      · have := hstop hrest
        omega
  · show (chunks.flatten :: rest).flatten = _
    rw [List.flatten_cons, hgvflat]

theorem Buffer.peek_wf (b : Buffer) (num : Nat) (h : b.wf) : (b.peek num).2.wf := by
  have hs := Buffer.peek_spec b num
  rw [Buffer.wf, hs.2.1, hs.2.2, h]

/-- A buffer operation issued by a caller of `Buffer`. -/
inductive BufOp
  | write (data : List Nat)
  | read (num : Nat)
  | peek (num : Nat)
  | getval
  | len
deriving DecidableEq, Repr

/-- An observation returned by a buffer operation. -/
inductive Obs
  | bytes (bs : List Nat)
  | count (n : Nat)
deriving DecidableEq, Repr

/-- One buffer operation on the real `Buffer`. -/
def Buffer.step : Buffer → BufOp → Buffer × Option Obs
  | b, .write d => (b.write d, none)
  | b, .read n => ((b.read n).2, some (.bytes (b.read n).1))
  | b, .peek n => ((b.peek n).2, some (.bytes (b.peek n).1))
  | b, .getval => (b, some (.bytes b.getvalue))
  | b, .len => (b, some (.count b.length))

/-- Run a sequence of operations on the real `Buffer`, collecting the
observations. -/
def Buffer.runOps : Buffer → List BufOp → Buffer × List Obs
  | b, [] => (b, [])
  | b, op :: ops =>
    ((Buffer.runOps (b.step op).1 ops).1,
      (b.step op).2.toList ++ (Buffer.runOps (b.step op).1 ops).2)

/-- One buffer operation on the reference model: a single contiguous byte
string.  `read n` returns the first `min n length` bytes and removes exactly
them; `peek n` returns the same bytes and leaves the content unchanged. -/
def contigStep : List Nat → BufOp → List Nat × Option Obs
  | c, .write d => (c ++ d, none)
  | c, .read n => (c.drop n, some (.bytes (c.take n)))
  | c, .peek n => (c, some (.bytes (c.take n)))
  | c, .getval => (c, some (.bytes c))
  | c, .len => (c, some (.count c.length))

/-- Run a sequence of operations on the contiguous reference model. -/
def contigRun : List Nat → List BufOp → List Nat × List Obs
  | c, [] => (c, [])
  | c, op :: ops =>
    ((contigRun (contigStep c op).1 ops).1,
      (contigStep c op).2.toList ++ (contigRun (contigStep c op).1 ops).2)

theorem runOps_contig (ops : List BufOp) :
    ∀ (b : Buffer), b.wf →
      (Buffer.runOps b ops).2 = (contigRun b.getvalue ops).2 ∧
      (Buffer.runOps b ops).1.getvalue = (contigRun b.getvalue ops).1 ∧
      (Buffer.runOps b ops).1.wf := by
  induction ops with
  | nil => exact fun b hb => ⟨rfl, rfl, hb⟩
  | cons op ops ih =>
    intro b hb
    have hstep : ((b.step op).1.getvalue = (contigStep b.getvalue op).1 ∧
        (b.step op).1.wf) ∧ (b.step op).2 = (contigStep b.getvalue op).2 := by
      cases op with
      | write d =>
        exact ⟨⟨Buffer.write_getvalue b d, Buffer.write_wf b d hb⟩, rfl⟩
      | read n =>
        have hs := Buffer.read_spec b n hb
        exact ⟨⟨hs.2.1, Buffer.read_wf b n hb⟩, by simp [Buffer.step, contigStep, hs.1]⟩
      | peek n =>
        have hs := Buffer.peek_spec b n
        exact ⟨⟨hs.2.1, Buffer.peek_wf b n hb⟩, by simp [Buffer.step, contigStep, hs.1]⟩
      | getval => exact ⟨⟨rfl, hb⟩, rfl⟩
      | len =>
        refine ⟨⟨rfl, hb⟩, ?_⟩
        show some (Obs.count b.length) = some (Obs.count b.getvalue.length)
        rw [hb]
    have ihb := ih (b.step op).1 hstep.1.2
    rw [Buffer.runOps, contigRun]
    refine ⟨?_, ?_, ?_⟩
    · rw [hstep.2, ihb.1, hstep.1.1]
    · rw [ihb.2.1, hstep.1.1]
    · exact ihb.2.2

/-- C5: buffer/contiguous equivalence.  First conjunct: any sequence of
`write`/`read`/`peek`/`getvalue`/`len` operations run on a fresh `Buffer()`
produces exactly the observations of a single contiguous byte buffer, and
leaves the same content.  Second conjunct, for any well-formed buffer:
`read num` returns the first `min num length` buffered bytes and removes
exactly them, `peek num` returns the same bytes while leaving the observable
content (`getvalue`) and `length` unchanged.  Chunk boundaries are never
observable. -/
theorem buffer_contiguous_equiv :
    (∀ ops : List BufOp,
      (Buffer.runOps (Buffer.init []) ops).2 = (contigRun [] ops).2 ∧
      (Buffer.runOps (Buffer.init []) ops).1.getvalue = (contigRun [] ops).1) ∧
    (∀ (b : Buffer) (num : Nat), b.wf →
      (b.read num).1 = b.getvalue.take num ∧
      (b.read num).2.getvalue = b.getvalue.drop num ∧
      (b.peek num).1 = b.getvalue.take num ∧
      (b.peek num).2.getvalue = b.getvalue ∧
      (b.peek num).2.length = b.length) := by
  constructor
  · intro ops
    have h := runOps_contig ops (Buffer.init []) (Buffer.init_wf [])
    have hgv : (Buffer.init []).getvalue = [] := rfl
    rw [hgv] at h
    exact ⟨h.1, h.2.1⟩
  · intro b num hb
    have hr := Buffer.read_spec b num hb
    have hp := Buffer.peek_spec b num
    exact ⟨hr.1, hr.2.1, hp.1, hp.2.1, hp.2.2⟩

/-- Witness for `buffer_contiguous_equiv` at a concrete buffer, operation
sequence and read/peek sizes. -/
theorem buffer_contiguous_equiv_witness :
    ((Buffer.runOps (Buffer.init []) [BufOp.write [1, 2], BufOp.peek 1, BufOp.read 3]).2
        = (contigRun [] [BufOp.write [1, 2], BufOp.peek 1, BufOp.read 3]).2) ∧
    ((Buffer.init [1, 2, 3]).read 2).1 = [1, 2] ∧
    ((Buffer.init [1, 2, 3]).peek 2).2.getvalue = [1, 2, 3] := by
  have h1 := buffer_contiguous_equiv.1 [BufOp.write [1, 2], BufOp.peek 1, BufOp.read 3]
  have h2 := buffer_contiguous_equiv.2 (Buffer.init [1, 2, 3]) 2 (Buffer.init_wf [1, 2, 3])
  refine ⟨h1.1, ?_, ?_⟩
  · rw [h2.1]
    decide
  · rw [h2.2.2.2.1]
    decide

/-! ### Frame assembly (`server/server.py`, `read_full_message` and the inner
loop of `handle_client`) -/

/-- `server/server.py` `read_full_message(buffer)`: peek the 3-byte length
prefix; if the whole message is buffered, consume the prefix and the message
and return the message, otherwise return `b''` and consume nothing. -/
def read_full_message (b : Buffer) : List Nat × Buffer :=
  let p := b.peek 3
  if p.1.length < 3 then ([], p.2)
  else
    let msgLen := fromBytesBE p.1
    if msgLen ≤ p.2.length - 3 then
      let r3 := p.2.read 3
      let rm := r3.2.read msgLen
      (rm.1, rm.2)
    else ([], p.2)

/-- Pure counterpart of one `read_full_message` step on the buffered bytes:
`some (message, rest)` when a complete message is buffered, else `none`. -/
def extractStep (bs : List Nat) : Option (List Nat × List Nat) :=
  if 3 ≤ bs.length ∧ fromBytesBE (bs.take 3) ≤ bs.length - 3 then
    some ((bs.drop 3).take (fromBytesBE (bs.take 3)),
      bs.drop (3 + fromBytesBE (bs.take 3)))
  else none

theorem read_full_message_none (b : Buffer) (h : b.wf)
    (hn : extractStep b.getvalue = none) :
    (read_full_message b).1 = [] ∧ (read_full_message b).2.getvalue = b.getvalue ∧
      (read_full_message b).2.wf := by
  have hp := Buffer.peek_spec b 3
  have hpwf := Buffer.peek_wf b 3 h
  rw [extractStep, ite_eq_right_iff] at hn
  unfold read_full_message
  by_cases h3 : (b.peek 3).1.length < 3
  · rw [if_pos h3]
    exact ⟨rfl, hp.2.1, hpwf⟩
  · rw [if_neg h3]
    have hgl : 3 ≤ b.getvalue.length := by
      rw [hp.1, List.length_take] at h3
      omega
    have hcond : ¬ fromBytesBE (b.peek 3).1 ≤ (b.peek 3).2.length - 3 := by
      intro hle
      rw [hp.1] at hle
      rw [hp.2.2, h] at hle
      exact Option.some_ne_none _ (hn ⟨hgl, hle⟩)
    rw [if_neg hcond]
    exact ⟨rfl, hp.2.1, hpwf⟩

theorem read_full_message_some (b : Buffer) (m r : List Nat) (h : b.wf)
    (hs : extractStep b.getvalue = some (m, r)) :
    (read_full_message b).1 = m ∧ (read_full_message b).2.getvalue = r ∧
      (read_full_message b).2.wf := by
  have hp := Buffer.peek_spec b 3
  have hpwf := Buffer.peek_wf b 3 h
  rw [extractStep] at hs
  by_cases hc : 3 ≤ b.getvalue.length ∧
      fromBytesBE (b.getvalue.take 3) ≤ b.getvalue.length - 3
  swap
  · rw [if_neg hc] at hs
    exact absurd hs (by simp)
  rw [if_pos hc] at hs
  simp only [Option.some_inj, Prod.mk.injEq] at hs
  obtain ⟨hm, hr⟩ := hs
  have hlen3 : (b.peek 3).1.length = 3 := by
    rw [hp.1, List.length_take]
    omega
  simp only [read_full_message]
  rw [hp.1]
  have htk : (b.getvalue.take 3).length = 3 := by
    rw [List.length_take]
    omega
  rw [if_neg (by omega)]
  have hplen : (b.peek 3).2.length = b.getvalue.length := by rw [hp.2.2, h]
  rw [if_pos (by rw [hplen]; exact hc.2)]
  have hr3wf := Buffer.read_wf (b.peek 3).2 3 hpwf
  have hr3 := Buffer.read_spec (b.peek 3).2 3 hpwf
  have hrm := Buffer.read_spec ((b.peek 3).2.read 3).2
    (fromBytesBE (b.getvalue.take 3)) hr3wf
  have hrmwf := Buffer.read_wf ((b.peek 3).2.read 3).2
    (fromBytesBE (b.getvalue.take 3)) hr3wf
  rw [hp.2.1] at hr3
  rw [hr3.2.1] at hrm
  refine ⟨?_, ?_, hrmwf⟩
  · rw [hrm.1]
    exact hm
  · rw [hrm.2.1, List.drop_drop]
    exact hr

/-- The inner `while True` loop of `handle_client`, restricted to message
extraction: repeatedly call `read_full_message` until it returns `b''`.
The fuel argument only bounds the iteration count; `extractLoop` below
supplies enough fuel, since every continuing iteration consumes at least
three buffered bytes. -/
def extractLoopF : Nat → Buffer → List (List Nat) × Buffer
  | 0, b => ([], b)
  | fuel + 1, b =>
    let r := read_full_message b
    if r.1 = [] then ([], r.2)
    else
      let k := extractLoopF fuel r.2
      (r.1 :: k.1, k.2)

/-- The inner extraction loop of `handle_client`: extract all complete
messages currently buffered, in order. -/
def extractLoop (b : Buffer) : List (List Nat) × Buffer :=
  extractLoopF b.length b

/-- Pure counterpart of the extraction loop on the buffered bytes. -/
def extractAllF : Nat → List Nat → List (List Nat) × List Nat
  | 0, bs => ([], bs)
  | fuel + 1, bs =>
    match extractStep bs with
    | none => ([], bs)
    | some (m, r) =>
      if m = [] then ([], r)
      else
        let k := extractAllF fuel r
        (m :: k.1, k.2)

/-- Pure counterpart of `extractLoop`. -/
def extractAll (bs : List Nat) : List (List Nat) × List Nat :=
  extractAllF bs.length bs

theorem extractStep_none_of_short (bs : List Nat) (h : bs.length < 3) :
    extractStep bs = none := by
  rw [extractStep, if_neg]
  intro hc
  omega

theorem extractStep_some_length (bs m r : List Nat)
    (h : extractStep bs = some (m, r)) : r.length + 3 ≤ bs.length := by
  rw [extractStep] at h
  by_cases hc : 3 ≤ bs.length ∧ fromBytesBE (bs.take 3) ≤ bs.length - 3
  · rw [if_pos hc] at h
    simp only [Option.some_inj, Prod.mk.injEq] at h
    have := h.2
    have hlen : r.length = bs.length - (3 + fromBytesBE (bs.take 3)) := by
      rw [← this, List.length_drop]
    omega
  · rw [if_neg hc] at h
    exact absurd h (by simp)

theorem extractAllF_irrel (f1 : Nat) :
    ∀ (f2 : Nat) (bs : List Nat), bs.length ≤ f1 → bs.length ≤ f2 →
      extractAllF f1 bs = extractAllF f2 bs := by
  induction f1 with
  | zero =>
    intro f2 bs h1 h2
    have hbs : bs.length = 0 := by omega
    have hnone : extractStep bs = none := extractStep_none_of_short bs (by omega)
    cases f2 with
    | zero => rfl
    | succ g =>
      rw [extractAllF, extractAllF, hnone]
  | succ f ih =>
    intro f2 bs h1 h2
    cases f2 with
    | zero =>
      have hnone : extractStep bs = none := extractStep_none_of_short bs (by omega)
      rw [extractAllF, extractAllF, hnone]
    | succ g =>
      rw [extractAllF, extractAllF]
      cases hstep : extractStep bs with
      | none => rfl
      | some p =>
        rcases p with ⟨m, r⟩
        have hrl := extractStep_some_length bs m r hstep
        dsimp only
        by_cases hm : m = []
        · rw [if_pos hm, if_pos hm]
        · rw [if_neg hm, if_neg hm, ih g r (by omega) (by omega)]

theorem extractAll_eq (bs : List Nat) :
    extractAll bs = match extractStep bs with
      | none => ([], bs)
      | some (m, r) =>
        if m = [] then ([], r)
        else ((m :: (extractAll r).1, (extractAll r).2) :
          List (List Nat) × List Nat) := by
  cases hlen : bs.length with
  | zero =>
    have hnone : extractStep bs = none := extractStep_none_of_short bs (by omega)
    rw [extractAll, hlen, hnone]
    rfl
  | succ n =>
    rw [extractAll, hlen, extractAllF]
    cases hstep : extractStep bs with
    | none => rfl
    | some p =>
      rcases p with ⟨m, r⟩
      have hrl := extractStep_some_length bs m r hstep
      rw [hlen] at hrl
      dsimp only
      by_cases hm : m = []
      · rw [if_pos hm, if_pos hm]
      · rw [if_neg hm, if_neg hm, extractAll,
          extractAllF_irrel n r.length r (by omega) (le_refl _)]

theorem extractLoopF_spec (fuel : Nat) :
    ∀ (b : Buffer), b.wf →
      (extractLoopF fuel b).1 = (extractAllF fuel b.getvalue).1 ∧
      (extractLoopF fuel b).2.getvalue = (extractAllF fuel b.getvalue).2 ∧
      (extractLoopF fuel b).2.wf := by
  induction fuel with
  | zero => exact fun b hb => ⟨rfl, rfl, hb⟩
  | succ f ih =>
    intro b hb
    rw [extractLoopF, extractAllF]
    cases hstep : extractStep b.getvalue with
    | none =>
      have hn := read_full_message_none b hb hstep
      rw [if_pos hn.1]
      exact ⟨rfl, hn.2.1, hn.2.2⟩
    | some p =>
      rcases p with ⟨m, r⟩
      have hs := read_full_message_some b m r hb hstep
      dsimp only
      by_cases hm : m = []
      · rw [if_pos (hs.1.trans hm), if_pos hm]
        exact ⟨rfl, hs.2.1, hs.2.2⟩
      · rw [if_neg (by rw [hs.1]; exact hm), if_neg hm]
        have ihr := ih (read_full_message b).2 hs.2.2
        rw [hs.2.1] at ihr
        exact ⟨by rw [hs.1, ihr.1], by rw [ihr.2.1], ihr.2.2⟩

theorem extractLoop_spec (b : Buffer) (hb : b.wf) :
    (extractLoop b).1 = (extractAll b.getvalue).1 ∧
    (extractLoop b).2.getvalue = (extractAll b.getvalue).2 ∧
    (extractLoop b).2.wf := by
  have h := extractLoopF_spec b.length b hb
  rw [extractLoop, extractAll, ← hb]
  exact h

theorem extractStep_zero_len (rest : List Nat) :
    extractStep (0 :: 0 :: 0 :: rest) = some ([], rest) := by
  have htk : (0 :: 0 :: 0 :: rest).take 3 = [0, 0, 0] := rfl
  have hfb : fromBytesBE [0, 0, 0] = 0 := rfl
  rw [extractStep, htk, hfb, if_pos (by constructor <;> simp)]
  rfl

/-- C9: `read_full_message` returns empty bytes both when the buffer does not
yet hold a complete message (first conjunct — nothing is consumed) and when
the buffered message's 3-byte length prefix is zero (second conjunct): there
the three prefix bytes are nevertheless consumed, and the inner extraction
loop of `handle_client` — whose extracted messages are exactly the frames
dispatched to handlers, so no handler runs for the zero-length frame — stops
without extracting any further complete messages already buffered (`rest` may
itself start with complete messages). -/
theorem read_full_message_zero_len :
    (∀ b : Buffer, b.wf →
      ¬(3 ≤ b.getvalue.length ∧
          fromBytesBE (b.getvalue.take 3) ≤ b.getvalue.length - 3) →
      (read_full_message b).1 = [] ∧
      (read_full_message b).2.getvalue = b.getvalue) ∧
    (∀ (b : Buffer) (rest : List Nat), b.wf →
      b.getvalue = 0 :: 0 :: 0 :: rest →
      (read_full_message b).1 = [] ∧
      (read_full_message b).2.getvalue = rest ∧
      (extractLoop b).1 = [] ∧
      (extractLoop b).2.getvalue = rest) := by
  constructor
  · intro b hb hc
    have hnone : extractStep b.getvalue = none := by
      rw [extractStep, if_neg hc]
    have h := read_full_message_none b hb hnone
    exact ⟨h.1, h.2.1⟩
  · intro b rest hb hgv
    have hstep : extractStep b.getvalue = some ([], rest) := by
      rw [hgv]
      exact extractStep_zero_len rest
    have h := read_full_message_some b [] rest hb hstep
    have hall : extractAll b.getvalue = ([], rest) := by
      rw [extractAll_eq, hstep]
      rfl
    have hloop := extractLoop_spec b hb
    rw [hall] at hloop
    exact ⟨h.1, h.2.1, hloop.1, hloop.2.1⟩

/-- Witness for `read_full_message_zero_len`: a buffer holding a single
byte (incomplete), and a buffer holding a zero-length prefix followed by a
complete frame `[0, 0, 1, 5]` that is nevertheless not extracted. -/
theorem read_full_message_zero_len_witness :
    ((read_full_message (Buffer.init [9])).1 = [] ∧
      (read_full_message (Buffer.init [9])).2.getvalue = (Buffer.init [9]).getvalue) ∧
    ((read_full_message (Buffer.init [0, 0, 0, 0, 0, 1, 5])).1 = [] ∧
      (read_full_message (Buffer.init [0, 0, 0, 0, 0, 1, 5])).2.getvalue = [0, 0, 1, 5] ∧
      (extractLoop (Buffer.init [0, 0, 0, 0, 0, 1, 5])).1 = [] ∧
      (extractLoop (Buffer.init [0, 0, 0, 0, 0, 1, 5])).2.getvalue = [0, 0, 1, 5]) :=
  ⟨read_full_message_zero_len.1 (Buffer.init [9]) (Buffer.init_wf _) (by decide),
    read_full_message_zero_len.2 (Buffer.init [0, 0, 0, 0, 0, 1, 5]) [0, 0, 1, 5]
      (Buffer.init_wf _) (by decide)⟩

/-! ### Frame streams and the assembler (C4) -/

/-- The byte encoding of one server frame with `body` and type byte `t`,
as produced by the server codec's `create_message` (cf.
`create_message_encodeFrame`). -/
def encodeFrame (body : List Nat) (t : Nat) : List Nat :=
  toBytes3Raw (body.length + 1) ++ (body ++ [t])

theorem create_message_encodeFrame (body : List Nat) (t : Nat)
    (h : body.length + 1 < 2 ^ 24) :
    Server.create_message body [t] = some (encodeFrame body t) := by
  simp [Server.create_message, toBytes3, h, encodeFrame]
  omega

/-- The concatenated byte stream of a list of frames `(body, type)`. -/
def stream (frames : List (List Nat × Nat)) : List Nat :=
  (frames.map (fun p => encodeFrame p.1 p.2)).flatten

/-- The `(body ++ type)` payload of a frame, i.e. the message bytes that
`read_full_message` extracts for it. -/
def payload (p : List Nat × Nat) : List Nat :=
  p.1 ++ [p.2]

theorem stream_cons (f : List Nat × Nat) (fs : List (List Nat × Nat)) :
    stream (f :: fs) = encodeFrame f.1 f.2 ++ stream fs := by
  simp [stream]

theorem stream_append (a b : List (List Nat × Nat)) :
    stream (a ++ b) = stream a ++ stream b := by
  simp [stream]

theorem encodeFrame_length (body : List Nat) (t : Nat) :
    (encodeFrame body t).length = body.length + 4 := by
  simp only [encodeFrame, toBytes3Raw, List.length_append, List.length_cons,
    List.length_nil]
  omega

theorem extractStep_encodeFrame (body : List Nat) (t : Nat) (rest : List Nat)
    (h : body.length + 1 < 2 ^ 24) :
    extractStep (encodeFrame body t ++ rest) = some (body ++ [t], rest) := by
  have hA : (toBytes3Raw (body.length + 1)).length = 3 := rfl
  have htake3 : (encodeFrame body t ++ rest).take 3 = toBytes3Raw (body.length + 1) := by
    rw [encodeFrame, List.append_assoc, ← hA, List.take_left]
  have hdrop3 : (encodeFrame body t ++ rest).drop 3 = (body ++ [t]) ++ rest := by
    rw [encodeFrame, List.append_assoc, ← hA, List.drop_left]
  have hXlen : (encodeFrame body t ++ rest).length = body.length + 4 + rest.length := by
    rw [List.length_append, encodeFrame_length]
  rw [extractStep, htake3, fromBytesBE_toBytes3Raw _ h,
    if_pos (by rw [hXlen]; omega)]
  rw [hdrop3]
  have hbt : (body ++ [t]).length = body.length + 1 := by simp
  have htk : ((body ++ [t]) ++ rest).take (body.length + 1) = body ++ [t] := by
    rw [← hbt, List.take_left]
  have hdp : (encodeFrame body t ++ rest).drop (3 + (body.length + 1)) = rest := by
    have he : (encodeFrame body t).length = 3 + (body.length + 1) := by
      rw [encodeFrame_length]
      omega
    rw [← he, List.drop_left]
  rw [htk, hdp]

theorem extractStep_encodeFrame_partial (body : List Nat) (t : Nat) (k : Nat)
    (h : body.length + 1 < 2 ^ 24) (hk : k < (encodeFrame body t).length) :
    extractStep ((encodeFrame body t).take k) = none := by
  by_cases h3 : k < 3
  · exact extractStep_none_of_short _ (by rw [List.length_take]; omega)
  · have hA : (toBytes3Raw (body.length + 1)).length = 3 := rfl
    have htk3 : (encodeFrame body t).take 3 = toBytes3Raw (body.length + 1) := by
      rw [encodeFrame, ← hA, List.take_left]
    have hlenk : ((encodeFrame body t).take k).length = k := by
      rw [List.length_take]
      omega
    rw [extractStep, if_neg]
    intro hc
    rw [List.take_take, Nat.min_def, if_pos (by omega : 3 ≤ k), htk3,
      fromBytesBE_toBytes3Raw _ h, hlenk] at hc
    rw [encodeFrame_length] at hk
    omega

theorem payload_ne_nil (p : List Nat × Nat) : payload p ≠ [] := by
  simp [payload]

theorem extractAll_partial (pb : List Nat) (pt : Nat) (k : Nat)
    (hpb : pb.length + 1 < 2 ^ 24) (hk : k < (encodeFrame pb pt).length) :
    ∀ (fs : List (List Nat × Nat)) (z : List Nat),
      (∀ p ∈ fs, p.1.length + 1 < 2 ^ 24) →
      z <+: (stream fs ++ (encodeFrame pb pt).take k) →
      ∃ fs1 fs2 z', fs = fs1 ++ fs2 ∧
        extractAll z = (fs1.map payload, z') ∧
        z = stream fs1 ++ z' ∧
        z' <+: (stream fs2 ++ (encodeFrame pb pt).take k) ∧
        extractStep z' = none := by
  intro fs
  induction fs with
  | nil =>
    intro z hfs hz
    rw [stream, List.map_nil, List.flatten_nil, List.nil_append] at hz
    have hzeq : z = ((encodeFrame pb pt).take k).take z.length :=
      List.prefix_iff_eq_take.mp hz
    have hnone : extractStep z = none := by
      rw [hzeq, List.take_take]
      exact extractStep_encodeFrame_partial pb pt _ hpb (by omega)
    have hall : extractAll z = ([], z) := by
      rw [extractAll_eq, hnone]
    refine ⟨[], [], z, rfl, hall, ?_, ?_, hnone⟩
    · rw [stream, List.map_nil, List.flatten_nil, List.nil_append]
    · rw [stream, List.map_nil, List.flatten_nil, List.nil_append]
      exact hz
  | cons f fs ih =>
    intro z hfs hz
    rw [stream_cons, List.append_assoc] at hz
    by_cases hlt : z.length < (encodeFrame f.1 f.2).length
    · have hzeq : z = (encodeFrame f.1 f.2).take z.length := by
        have := List.prefix_iff_eq_take.mp hz
        rw [List.take_append_of_le_length (by omega)] at this
        exact this
      have hnone : extractStep z = none := by
        rw [hzeq]
        exact extractStep_encodeFrame_partial f.1 f.2 _
          (hfs f (List.mem_cons_self f fs)) (by omega)
      have hall : extractAll z = ([], z) := by
        rw [extractAll_eq, hnone]
      refine ⟨[], f :: fs, z, rfl, hall, by rw [stream, List.map_nil,
        List.flatten_nil, List.nil_append], ?_, hnone⟩
      rw [stream_cons, List.append_assoc]
      exact hz
    · have hencpre : encodeFrame f.1 f.2 <+: z := by
        refine List.prefix_of_prefix_length_le ?_ hz (by omega)
        exact ⟨stream fs ++ (encodeFrame pb pt).take k, rfl⟩
      obtain ⟨z2, hz2⟩ := hencpre
      obtain ⟨w, hw⟩ := hz
      have hz2pre : z2 <+: (stream fs ++ (encodeFrame pb pt).take k) := by
        refine ⟨w, ?_⟩
        rw [← hz2, List.append_assoc] at hw
        exact List.append_cancel_left hw
      have hstep : extractStep z = some (payload f, z2) := by
        rw [← hz2]
        exact extractStep_encodeFrame f.1 f.2 z2 (hfs f (List.mem_cons_self f fs))
      have hall : extractAll z =
          (payload f :: (extractAll z2).1, (extractAll z2).2) := by
        rw [extractAll_eq, hstep]
        dsimp only
        rw [if_neg (payload_ne_nil f)]
      obtain ⟨fs1, fs2, z', hfs12, hAll, hzdec, hpre, hstuck⟩ :=
        ih z2 (fun p hp => hfs p (List.mem_cons_of_mem f hp)) hz2pre
      refine ⟨f :: fs1, fs2, z', by rw [hfs12, List.cons_append], ?_, ?_, hpre, hstuck⟩
      · rw [hall, hAll, List.map_cons]
      · rw [← hz2, hzdec, stream_cons, List.append_assoc]

/-- One iteration of the outer loop of `handle_client`, restricted to the
buffer: `buffer.write(data)` followed by the inner extraction loop. -/
def feed (b : Buffer) (data : List Nat) : List (List Nat) × Buffer :=
  extractLoop (b.write data)

/-- Feed a sequence of transport chunks through the buffer, collecting all
extracted messages in order. -/
def feedMany : Buffer → List (List Nat) → List (List Nat) × Buffer
  | b, [] => ([], b)
  | b, d :: ds =>
    ((feed b d).1 ++ (feedMany (feed b d).2 ds).1, (feedMany (feed b d).2 ds).2)

/-- Pure counterpart of `feedMany` on the buffered bytes. -/
def pureFeedMany : List Nat → List (List Nat) → List (List Nat) × List Nat
  | s, [] => ([], s)
  | s, d :: ds =>
    ((extractAll (s ++ d)).1 ++ (pureFeedMany (extractAll (s ++ d)).2 ds).1,
      (pureFeedMany (extractAll (s ++ d)).2 ds).2)

theorem feedMany_spec (ds : List (List Nat)) :
    ∀ (b : Buffer), b.wf →
      (feedMany b ds).1 = (pureFeedMany b.getvalue ds).1 ∧
      (feedMany b ds).2.getvalue = (pureFeedMany b.getvalue ds).2 ∧
      (feedMany b ds).2.wf := by
  induction ds with
  | nil => exact fun b hb => ⟨rfl, rfl, hb⟩
  | cons d ds ih =>
    intro b hb
    have hwwf := Buffer.write_wf b d hb
    have hwgv := Buffer.write_getvalue b d
    have hloop := extractLoop_spec (b.write d) hwwf
    rw [hwgv] at hloop
    have ihf := ih (feed b d).2 hloop.2.2
    rw [feedMany, pureFeedMany]
    refine ⟨?_, ?_, ihf.2.2⟩
    · show (feed b d).1 ++ _ = _
      rw [show (feed b d).1 = (extractAll (b.getvalue ++ d)).1 from hloop.1,
        ihf.1, show (feed b d).2.getvalue = (extractAll (b.getvalue ++ d)).2
          from hloop.2.1]
    · rw [ihf.2.1, show (feed b d).2.getvalue = (extractAll (b.getvalue ++ d)).2
        from hloop.2.1]

theorem pureFeedMany_parse (pb : List Nat) (pt : Nat) (k : Nat)
    (hpb : pb.length + 1 < 2 ^ 24) (hk : k < (encodeFrame pb pt).length) :
    ∀ (ds : List (List Nat)) (fs : List (List Nat × Nat)) (s : List Nat),
      (∀ p ∈ fs, p.1.length + 1 < 2 ^ 24) →
      s ++ ds.flatten = stream fs ++ (encodeFrame pb pt).take k →
      extractStep s = none →
      (pureFeedMany s ds).1 = fs.map payload ∧
      (pureFeedMany s ds).2 = (encodeFrame pb pt).take k := by
  intro ds
  induction ds with
  | nil =>
    intro fs s hfs htot hstuck
    rw [List.flatten_nil, List.append_nil] at htot
    cases fs with
    | nil =>
      rw [stream, List.map_nil, List.flatten_nil, List.nil_append] at htot
      exact ⟨rfl, htot⟩
    | cons f fs' =>
      exfalso
      rw [stream_cons, List.append_assoc] at htot
      rw [htot, extractStep_encodeFrame f.1 f.2 _
        (hfs f (List.mem_cons_self f fs'))] at hstuck
      exact Option.some_ne_none _ hstuck
  | cons d ds ih =>
    intro fs s hfs htot hstuck
    have hpre : (s ++ d) <+: stream fs ++ (encodeFrame pb pt).take k := by
      refine ⟨ds.flatten, ?_⟩
      rw [← htot, List.flatten_cons, List.append_assoc]
    obtain ⟨fs1, fs2, z', hfs12, hAll, hzdec, _, hstuck'⟩ :=
      extractAll_partial pb pt k hpb hk fs (s ++ d) hfs hpre
    have hboth : stream fs1 ++ (z' ++ ds.flatten)
        = stream fs1 ++ (stream fs2 ++ (encodeFrame pb pt).take k) := by
      rw [← List.append_assoc, ← hzdec, List.append_assoc, ← List.flatten_cons,
        htot, hfs12, stream_append, List.append_assoc]
    have hrest : z' ++ ds.flatten = stream fs2 ++ (encodeFrame pb pt).take k :=
      List.append_cancel_left hboth
    have ihr := ih fs2 z'
      (fun p hp => hfs p (hfs12 ▸ List.mem_append_right fs1 hp)) hrest hstuck'
    rw [pureFeedMany, hAll]
    refine ⟨?_, ihr.2⟩
    rw [ihr.1, hfs12, List.map_append]

/-- C4: assembler completeness.  For every finite sequence of frames produced
by the server codec (`stream frames`, possibly followed by a strict prefix of
one further frame — the incomplete trailing frame), feeding the bytes through
the buffer-plus-`read_full_message` extraction loop of `handle_client` in
*any* chunking whatsoever (one call, or split at every possible byte
boundary) yields exactly the frames' `(type, body)` pairs in order
(`read_type` is what `handle_client` applies to each extracted message), and
the bytes of the incomplete trailing frame are never consumed: they are
exactly what remains buffered. -/
theorem assembler_complete_any_split
    (frames : List (List Nat × Nat)) (pb : List Nat) (pt : Nat) (kp : Nat)
    (chunks : List (List Nat))
    (hb : ∀ p ∈ frames, p.1.length + 1 < 2 ^ 24)
    (hpb : pb.length + 1 < 2 ^ 24)
    (hkp : kp < (encodeFrame pb pt).length)
    (hsplit : chunks.flatten = stream frames ++ (encodeFrame pb pt).take kp) :
    (feedMany (Buffer.init []) chunks).1.map Server.read_type
        = frames.map (fun p => ([p.2], p.1)) ∧
    (feedMany (Buffer.init []) chunks).2.getvalue = (encodeFrame pb pt).take kp := by
  have hw := feedMany_spec chunks (Buffer.init []) (Buffer.init_wf [])
  have hgv : (Buffer.init []).getvalue = [] := rfl
  rw [hgv] at hw
  have hp := pureFeedMany_parse pb pt kp hpb hkp chunks frames [] hb
    (by rw [List.nil_append]; exact hsplit)
    (extractStep_none_of_short [] (by simp))
  refine ⟨?_, by rw [hw.2.1, hp.2]⟩
  rw [hw.1, hp.1, List.map_map]
  have hfun : Server.read_type ∘ payload = fun p : List Nat × Nat => ([p.2], p.1) :=
    funext (fun p => read_type_append p.1 p.2)
  rw [hfun]

/-- Witness for `assembler_complete_any_split`: one frame (body `[104]`, type
byte `0`) followed by the first two bytes of a second frame, fed one byte per
call. -/
theorem assembler_complete_any_split_witness :
    (feedMany (Buffer.init [])
        [[0], [0], [2], [104], [0], [0], [0]]).1.map Server.read_type
        = [([104], 0)].map (fun p : List Nat × Nat => ([p.2], p.1)) ∧
    (feedMany (Buffer.init [])
        [[0], [0], [2], [104], [0], [0], [0]]).2.getvalue
        = (encodeFrame [7, 7] 2).take 2 :=
  assembler_complete_any_split [([104], 0)] [7, 7] 2 2
    [[0], [0], [2], [104], [0], [0], [0]]
    (by decide) (by decide) (by decide) (by decide)

/-! ### Sessions, registry and handlers (`server/server.py`: class `Client`,
`handle_client`, `recv_hello`, `recv_text`, `recv_active`) -/

/-- The Python attribute state of one `Client` instance together with the
observables of its connection.  `nick` is the constructor attribute
(`handle_client` constructs `Client(writer, ending)`, leaving it `None`);
`nickname` is the *distinct* attribute created by assignment in `recv_hello`.
`receivers` is `none` for the default live `nicks_clients.values()` view and
`some cids` when explicitly overridden.  `outbox` records the byte strings
passed to `writer.write`, `closed` whether `writer.close()` ran, and
`endingDone` whether the `ending` future is done. -/
structure SessSt where
  nick : Option (List Nat)
  nickname : Option (List Nat)
  receivers : Option (List Nat)
  endingDone : Bool
  outbox : List (List Nat)
  closed : Bool
deriving DecidableEq, Repr

/-- A freshly constructed `Client(writer, ending)` with nothing written. -/
def SessSt.fresh : SessSt :=
  ⟨none, none, none, false, [], false⟩

/-- The shared server state: the class-level registry
`Client._nicks_clients` — an insertion-ordered mapping nickname ↦ session —
plus the state of every session, indexed by session id. -/
structure World where
  sessions : List SessSt
  registry : List (List Nat × Nat)
deriving DecidableEq, Repr

def World.sess (w : World) (cid : Nat) : SessSt :=
  w.sessions.getD cid SessSt.fresh

def World.setSess (w : World) (cid : Nat) (s : SessSt) : World :=
  ⟨w.sessions.set cid s, w.registry⟩

/-- `client.writer.write(m)` for the session `cid`. -/
def World.send (w : World) (cid : Nat) (m : List Nat) : World :=
  w.setSess cid { w.sess cid with outbox := (w.sess cid).outbox ++ [m] }

/-- `writer.close()` for the session `cid`. -/
def World.closeWriter (w : World) (cid : Nat) : World :=
  w.setSess cid { w.sess cid with closed := true }

theorem World.sess_setSess (w : World) (cid : Nat) (s : SessSt) (c : Nat) :
    (w.setSess cid s).sess c =
      if c = cid ∧ cid < w.sessions.length then s else w.sess c := by
  by_cases hc : c = cid ∧ cid < w.sessions.length
  · rw [if_pos hc, World.sess, World.setSess, hc.1]
    simp only [List.getD_eq_getElem?_getD, List.getElem?_set_self' , hc.2]
    simp [hc.2]
  · rw [if_neg hc]
    rcases Decidable.not_and_iff_or_not.mp hc with hne | hge
    · show (w.sessions.set cid s).getD c SessSt.fresh = _
      rw [List.getD_eq_getElem?_getD, List.getElem?_set_ne (fun h => hne h.symm),
        ← List.getD_eq_getElem?_getD]
      rfl
    · show (w.sessions.set cid s).getD c SessSt.fresh = _
      rw [List.set_eq_of_length_le (by omega)]
      rfl

theorem World.setSess_registry (w : World) (cid : Nat) (s : SessSt) :
    (w.setSess cid s).registry = w.registry := rfl

theorem World.setSess_length (w : World) (cid : Nat) (s : SessSt) :
    (w.setSess cid s).sessions.length = w.sessions.length :=
  List.length_set ..

theorem World.sess_send (w : World) (cid : Nat) (m : List Nat) (c : Nat) :
    (w.send cid m).sess c =
      if c = cid ∧ cid < w.sessions.length then
        { w.sess cid with outbox := (w.sess cid).outbox ++ [m] }
      else w.sess c :=
  World.sess_setSess ..

/-- `get_msg_types` enumerates the module's `recv_*` functions in the
alphabetical order produced by `inspect.getmembers` — `recv_active`,
`recv_hello`, `recv_text` — and maps them to consecutive bytes. -/
def activeByte : Nat := 0

def helloByte : Nat := 1

def textByte : Nat := 2

/-- `recv_hello(msg_types, message, client)`.  `read_message` (UTF-8 decode)
is modelled as the identity on the nickname's bytes.  If the nickname is
taken, a `hello` rejection echoing it is written to the session's own writer
and the `ending` future is set; otherwise the registry entry and the
session's `nickname` attribute are set.  `none` models an exception
(`OverflowError` from `to_bytes`, or `InvalidStateError` from `set_result`
on an already-done future). -/
def recv_hello (w : World) (cid : Nat) (message : List Nat) : Option World :=
  let nick := message
  if nick ∈ w.registry.map Prod.fst then
    match Server.create_message nick [helloByte] with
    | none => none
    | some msg =>
      if (w.sess cid).endingDone then none
      else
        let w1 := w.send cid msg
        some (w1.setSess cid { w1.sess cid with endingDone := true })
  else
    let w1 := { w with registry := w.registry ++ [(nick, cid)] }
    some (w1.setSess cid { w1.sess cid with nickname := some nick })

/-- Write `m` to the writer of every session in `cids`, in order. -/
def deliver (w : World) (cids : List Nat) (m : List Nat) : World :=
  cids.foldl (fun w c => w.send c m) w

/-- `recv_text(msg_types, message, client)`: re-encode the message as a text
frame and write it to every receiver.  The default receiver set is the live
`nicks_clients.values()` view: the registry's sessions, in insertion order,
at call time.  `create_message` is invoked once per receiver inside the
loop, so an empty receiver set raises nothing. -/
def recv_text (w : World) (cid : Nat) (message : List Nat) : Option World :=
  let recvs := match (w.sess cid).receivers with
    | none => w.registry.map Prod.snd
    | some l => l
  if recvs = [] then some w
  else
    match Server.create_message message [textByte] with
    | none => none
    | some msg => some (deliver w recvs msg)

/-- The bytes of `' (you)'`. -/
def youSuffix : List Nat := [32, 40, 121, 111, 117, 41]

/-- Lexicographic byte order; on UTF-8 encodings this coincides with
Python's code-point order on the decoded strings. -/
def lexLe : List Nat → List Nat → Bool
  | [], _ => true
  | _ :: _, [] => false
  | a :: l1, b :: l2 => if a < b then true else if b < a then false else lexLe l1 l2

def insertSorted (x : List Nat) : List (List Nat) → List (List Nat)
  | [] => [x]
  | y :: ys => if lexLe x y then x :: y :: ys else y :: insertSorted x ys

/-- Python `sorted` on distinct byte strings (insertion sort). -/
def sortNicks : List (List Nat) → List (List Nat)
  | [] => []
  | x :: xs => insertSorted x (sortNicks xs)

/-- `set.add`. -/
def setAdd (l : List (List Nat)) (x : List Nat) : List (List Nat) :=
  if x ∈ l then l else l ++ [x]

/-- `set.remove` (the element is present at every call site). -/
def setRemove (l : List (List Nat)) (x : List Nat) : List (List Nat) :=
  l.filter (fun y => y ≠ x)

/-- `recv_active(msg_types, client)`: take the set of registered nicknames;
if `client.nick` is among them (note: `recv_hello` sets `client.nickname`,
not `client.nick`, and `handle_client` leaves `nick = None`), replace it by
`nick + ' (you)'`; reply with the sorted, newline-joined,
newline-terminated roster in a text frame on the requester's own writer. -/
def recv_active (w : World) (cid : Nat) : Option World :=
  let nicks0 := (w.registry.map Prod.fst).dedup
  let nicks1 := match (w.sess cid).nick with
    | some n => if n ∈ nicks0 then setRemove (setAdd nicks0 (n ++ youSuffix)) n
        else nicks0
    | none => nicks0
  let active := List.intercalate [10] (sortNicks nicks1) ++ [10]
  match Server.create_message active [textByte] with
  | none => none
  | some msg => some (w.send cid msg)

/-- Handler dispatch by type byte, as wired by `get_msg_types`/`get_handlers`
(alphabetical: `active ↦ 0`, `hello ↦ 1`, `text ↦ 2`).  An unknown type
raises `KeyError` (`none`). -/
def dispatch (w : World) (cid : Nat) (t : List Nat) (body : List Nat) : Option World :=
  if t = [activeByte] then recv_active w cid
  else if t = [helloByte] then recv_hello w cid body
  else if t = [textByte] then recv_text w cid body
  else none

/-- The inner `while True` loop of `handle_client` with handler dispatch:
extract complete messages, split each with `read_type` and dispatch on the
trailing type byte.  The boolean result records whether a handler raised
(the exception propagates out of `handle_client`, skipping `writer.close`).
Fuel as in `extractLoopF`; `innerLoop` supplies enough. -/
def innerF : Nat → World → Nat → Buffer → World × Buffer × Bool
  | 0, w, _, b => (w, b, false)
  | fuel + 1, w, cid, b =>
    let r := read_full_message b
    if r.1 = [] then (w, r.2, false)
    else
      match dispatch w cid (Server.read_type r.1).1 (Server.read_type r.1).2 with
      | none => (w, r.2, true)
      | some w' => innerF fuel w' cid r.2

def innerLoop (w : World) (cid : Nat) (b : Buffer) : World × Buffer × Bool :=
  innerF b.length w cid b

/-- How a run of `handle_client` ended (so far). -/
inductive RunStatus
  | awaiting
  | finished
  | crashed
deriving DecidableEq, Repr

/-- `handle_client(reader, writer, handlers, msg_types, ending)`, run
deterministically against the list `rs` of byte strings successive
`reader.read` calls return.  `while not client.ending.done()` is checked at
the top of each iteration; when `rs` is exhausted the coroutine is suspended
in `await reader.read` (`awaiting`); when the loop exits, `writer.close()`
runs (`finished`); a handler exception aborts without closing (`crashed`). -/
def handle_run : World → Nat → Buffer → List (List Nat) → World × Buffer × RunStatus
  | w, cid, b, rs =>
    if (w.sess cid).endingDone then (w.closeWriter cid, b, RunStatus.finished)
    else
      match rs with
      | [] => (w, b, RunStatus.awaiting)
      | d :: rest =>
        let r := innerLoop w cid (b.write d)
        if r.2.2 then (r.1, r.2.1, RunStatus.crashed)
        else handle_run r.1 cid r.2.1 rest

theorem deliver_registry (cids : List Nat) :
    ∀ (w : World) (m : List Nat), (deliver w cids m).registry = w.registry := by
  induction cids with
  | nil => intro w m; rfl
  | cons c cs ih =>
    intro w m
    show (deliver (w.send c m) cs m).registry = w.registry
    rw [ih]
    rfl

theorem recv_hello_registry (w : World) (cid : Nat) (m : List Nat) (w' : World)
    (h : recv_hello w cid m = some w') :
    ∃ ext, w'.registry = w.registry ++ ext := by
  simp only [recv_hello] at h
  split at h
  · split at h
    · exact absurd h (by simp)
    · split at h
      · exact absurd h (by simp)
      · refine ⟨[], ?_⟩
        rw [List.append_nil, ← Option.some_inj.mp h]
        rfl
  · refine ⟨[(m, cid)], ?_⟩
    rw [← Option.some_inj.mp h]
    rfl

theorem recv_text_registry (w : World) (cid : Nat) (m : List Nat) (w' : World)
    (h : recv_text w cid m = some w') : w'.registry = w.registry := by
  simp only [recv_text] at h
  split at h
  · rw [← Option.some_inj.mp h]
  · split at h
    · exact absurd h (by simp)
    · rw [← Option.some_inj.mp h]
      exact deliver_registry _ _ _

theorem recv_active_registry (w : World) (cid : Nat) (w' : World)
    (h : recv_active w cid = some w') : w'.registry = w.registry := by
  simp only [recv_active] at h
  split at h
  · exact absurd h (by simp)
  · rw [← Option.some_inj.mp h]
    rfl

theorem dispatch_registry (w : World) (cid : Nat) (t body : List Nat) (w' : World)
    (h : dispatch w cid t body = some w') :
    ∃ ext, w'.registry = w.registry ++ ext := by
  simp only [dispatch] at h
  split at h
  · exact ⟨[], by rw [List.append_nil, recv_active_registry w cid w' h]⟩
  · split at h
    · exact recv_hello_registry w cid body w' h
    · split at h
      · exact ⟨[], by rw [List.append_nil, recv_text_registry w cid body w' h]⟩
      · exact absurd h (by simp)

theorem innerF_registry (fuel : Nat) :
    ∀ (w : World) (cid : Nat) (b : Buffer),
      ∃ ext, (innerF fuel w cid b).1.registry = w.registry ++ ext := by
  induction fuel with
  | zero => exact fun w cid b => ⟨[], (List.append_nil _).symm⟩
  | succ f ih =>
    intro w cid b
    rw [innerF]
    split
    · exact ⟨[], (List.append_nil _).symm⟩
    · split
      · exact ⟨[], (List.append_nil _).symm⟩
      · rename_i w2 hdisp
        obtain ⟨e1, he1⟩ := dispatch_registry w cid _ _ w2 hdisp
        obtain ⟨e2, he2⟩ := ih w2 cid (read_full_message b).2
        exact ⟨e1 ++ e2, by rw [he2, he1, List.append_assoc]⟩

/-- C1 (amended): `handle_client` never releases a registry entry.  Over any
run — any sequence of transport reads, from any starting state — the shared
registry `Client._nicks_clients` only ever grows (`recv_hello` appends
entries; no code path removes one).  In particular, when the receive loop
exits and the writer is closed, a nickname the session registered is *not*
removed — it is removed zero times, not once — so a closed session remains a
broadcast target (cf. `hello_close_keeps_registry_entry`). -/
theorem handle_run_registry_never_released :
    ∀ (rs : List (List Nat)) (w : World) (cid : Nat) (b : Buffer),
      ∃ ext, (handle_run w cid b rs).1.registry = w.registry ++ ext := by
  intro rs
  induction rs with
  | nil =>
    intro w cid b
    rw [handle_run]
    split
    · exact ⟨[], (List.append_nil _).symm⟩
    · exact ⟨[], (List.append_nil _).symm⟩
  | cons d rest ih =>
    intro w cid b
    rw [handle_run]
    split
    · exact ⟨[], (List.append_nil _).symm⟩
    · obtain ⟨e1, he1⟩ := innerF_registry (b.write d).length w cid (b.write d)
      have he1' : (innerLoop w cid (b.write d)).1.registry = w.registry ++ e1 := he1
      show ∃ ext, (if (innerLoop w cid (b.write d)).2.2 = true
          then ((innerLoop w cid (b.write d)).1, (innerLoop w cid (b.write d)).2.1,
            RunStatus.crashed)
          else handle_run (innerLoop w cid (b.write d)).1 cid
            (innerLoop w cid (b.write d)).2.1 rest).1.registry = w.registry ++ ext
      by_cases hcr : (innerLoop w cid (b.write d)).2.2 = true
      · rw [if_pos hcr]
        exact ⟨e1, he1'⟩
      · rw [if_neg hcr]
        obtain ⟨e2, he2⟩ := ih (innerLoop w cid (b.write d)).1 cid
          (innerLoop w cid (b.write d)).2.1
        exact ⟨e1 ++ e2, by rw [he2, he1', List.append_assoc]⟩

/-- C1 counterexample: a session registers nickname `[97]`, is rejected on a
duplicate hello (which sets the ending future), and the loop then exits and
closes the writer — yet `[97]` is still in the registry after teardown,
refuting "the nickname is removed from the shared registry exactly once
before the session finishes closing". -/
theorem hello_close_keeps_registry_entry :
    (handle_run ⟨[SessSt.fresh], []⟩ 0 (Buffer.init [])
        [encodeFrame [97] 1, encodeFrame [97] 1]).2.2 = RunStatus.finished ∧
    ((handle_run ⟨[SessSt.fresh], []⟩ 0 (Buffer.init [])
        [encodeFrame [97] 1, encodeFrame [97] 1]).1.sess 0).closed = true ∧
    (handle_run ⟨[SessSt.fresh], []⟩ 0 (Buffer.init [])
        [encodeFrame [97] 1, encodeFrame [97] 1]).1.registry = [([97], 0)] := by
  decide

theorem sess_closed_setSess (w : World) (cid : Nat) (s : SessSt) (c : Nat)
    (h : s.closed = (w.sess cid).closed) :
    ((w.setSess cid s).sess c).closed = (w.sess c).closed := by
  rw [World.sess_setSess]
  split
  · rename_i hc
    rw [h, hc.1]
  · rfl

theorem sess_closed_send (w : World) (cid : Nat) (m : List Nat) (c : Nat) :
    ((w.send cid m).sess c).closed = (w.sess c).closed :=
  sess_closed_setSess w cid _ c rfl

theorem deliver_closed (cids : List Nat) :
    ∀ (w : World) (m : List Nat) (c : Nat),
      ((deliver w cids m).sess c).closed = (w.sess c).closed := by
  induction cids with
  | nil => exact fun w m c => rfl
  | cons x xs ih =>
    intro w m c
    show ((deliver (w.send x m) xs m).sess c).closed = _
    rw [ih, sess_closed_send]

theorem recv_hello_closed (w : World) (cid : Nat) (m : List Nat) (w' : World)
    (h : recv_hello w cid m = some w') (c : Nat) :
    (w'.sess c).closed = (w.sess c).closed := by
  simp only [recv_hello] at h
  split at h
  · split at h
    · exact absurd h (by simp)
    · split at h
      · exact absurd h (by simp)
      · rename_i msg heq2 hnd
        rw [← Option.some_inj.mp h]
        exact Eq.trans (b := ((w.send cid msg).sess c).closed)
          (sess_closed_setSess _ _ _ _ rfl) (sess_closed_send w cid msg c)
  · rw [← Option.some_inj.mp h]
    exact Eq.trans
      (b := (({ w with registry := w.registry ++ [(m, cid)] } : World).sess c).closed)
      (sess_closed_setSess _ _ _ _ rfl) rfl

theorem recv_text_closed (w : World) (cid : Nat) (m : List Nat) (w' : World)
    (h : recv_text w cid m = some w') (c : Nat) :
    (w'.sess c).closed = (w.sess c).closed := by
  simp only [recv_text] at h
  split at h
  · rw [← Option.some_inj.mp h]
  · split at h
    · exact absurd h (by simp)
    · rw [← Option.some_inj.mp h]
      exact deliver_closed _ _ _ _

theorem recv_active_closed (w : World) (cid : Nat) (w' : World)
    (h : recv_active w cid = some w') (c : Nat) :
    (w'.sess c).closed = (w.sess c).closed := by
  simp only [recv_active] at h
  split at h
  · exact absurd h (by simp)
  · rw [← Option.some_inj.mp h]
    exact sess_closed_send w cid _ c

theorem dispatch_closed (w : World) (cid : Nat) (t body : List Nat) (w' : World)
    (h : dispatch w cid t body = some w') (c : Nat) :
    (w'.sess c).closed = (w.sess c).closed := by
  simp only [dispatch] at h
  split at h
  · exact recv_active_closed w cid w' h c
  · split at h
    · exact recv_hello_closed w cid body w' h c
    · split at h
      · exact recv_text_closed w cid body w' h c
      · exact absurd h (by simp)

theorem deliver_length (cids : List Nat) :
    ∀ (w : World) (m : List Nat),
      (deliver w cids m).sessions.length = w.sessions.length := by
  induction cids with
  | nil => exact fun w m => rfl
  | cons x xs ih =>
    intro w m
    show (deliver (w.send x m) xs m).sessions.length = _
    rw [ih]
    exact World.setSess_length ..

theorem recv_hello_length (w : World) (cid : Nat) (m : List Nat) (w' : World)
    (h : recv_hello w cid m = some w') :
    w'.sessions.length = w.sessions.length := by
  simp only [recv_hello] at h
  split at h
  · split at h
    · exact absurd h (by simp)
    · split at h
      · exact absurd h (by simp)
      · rw [← Option.some_inj.mp h]
        exact (World.setSess_length (w.send cid _) cid _).trans
          (World.setSess_length w cid _)
  · rw [← Option.some_inj.mp h]
    exact (World.setSess_length { w with registry := w.registry ++ [(m, cid)] }
      cid _).trans rfl

theorem recv_text_length (w : World) (cid : Nat) (m : List Nat) (w' : World)
    (h : recv_text w cid m = some w') :
    w'.sessions.length = w.sessions.length := by
  simp only [recv_text] at h
  split at h
  · rw [← Option.some_inj.mp h]
  · split at h
    · exact absurd h (by simp)
    · rw [← Option.some_inj.mp h]
      exact deliver_length _ _ _

theorem recv_active_length (w : World) (cid : Nat) (w' : World)
    (h : recv_active w cid = some w') :
    w'.sessions.length = w.sessions.length := by
  simp only [recv_active] at h
  split at h
  · exact absurd h (by simp)
  · rw [← Option.some_inj.mp h]
    exact World.setSess_length w cid _

theorem dispatch_length (w : World) (cid : Nat) (t body : List Nat) (w' : World)
    (h : dispatch w cid t body = some w') :
    w'.sessions.length = w.sessions.length := by
  simp only [dispatch] at h
  split at h
  · exact recv_active_length w cid w' h
  · split at h
    · exact recv_hello_length w cid body w' h
    · split at h
      · exact recv_text_length w cid body w' h
      · exact absurd h (by simp)

theorem innerF_closed_length (fuel : Nat) :
    ∀ (w : World) (cid : Nat) (b : Buffer) (c : Nat),
      ((innerF fuel w cid b).1.sess c).closed = (w.sess c).closed ∧
      (innerF fuel w cid b).1.sessions.length = w.sessions.length := by
  induction fuel with
  | zero => exact fun w cid b c => ⟨rfl, rfl⟩
  | succ f ih =>
    intro w cid b c
    rw [innerF]
    split
    · exact ⟨rfl, rfl⟩
    · split
      · exact ⟨rfl, rfl⟩
      · rename_i w2 hdisp
        have ihw := ih w2 cid (read_full_message b).2 c
        exact ⟨ihw.1.trans (dispatch_closed w cid _ _ w2 hdisp c),
          ihw.2.trans (dispatch_length w cid _ _ w2 hdisp)⟩

theorem closeWriter_closed (w : World) (cid : Nat) (h : cid < w.sessions.length) :
    ((w.closeWriter cid).sess cid).closed = true := by
  rw [World.closeWriter, World.sess_setSess, if_pos ⟨rfl, h⟩]

theorem handle_run_closed_iff (rs : List (List Nat)) :
    ∀ (w : World) (cid : Nat) (b : Buffer), cid < w.sessions.length →
      (w.sess cid).closed = false →
      (((handle_run w cid b rs).1.sess cid).closed = true ↔
        (handle_run w cid b rs).2.2 = RunStatus.finished) := by
  induction rs with
  | nil =>
    intro w cid b hlen hcl
    rw [handle_run]
    split
    · exact iff_of_true (closeWriter_closed w cid hlen) rfl
    · exact iff_of_false (by rw [hcl]; simp) (by simp)
  | cons d rest ih =>
    intro w cid b hlen hcl
    rw [handle_run]
    split
    · exact iff_of_true (closeWriter_closed w cid hlen) rfl
    · have hinner := innerF_closed_length (b.write d).length w cid (b.write d) cid
      have hcl' : ((innerLoop w cid (b.write d)).1.sess cid).closed = false :=
        hinner.1.trans hcl
      have hlen' : cid < (innerLoop w cid (b.write d)).1.sessions.length := by
        have h2 : (innerLoop w cid (b.write d)).1.sessions.length
            = w.sessions.length := hinner.2
        omega
      show (((if (innerLoop w cid (b.write d)).2.2 = true
          then ((innerLoop w cid (b.write d)).1, (innerLoop w cid (b.write d)).2.1,
            RunStatus.crashed)
          else handle_run (innerLoop w cid (b.write d)).1 cid
            (innerLoop w cid (b.write d)).2.1 rest)).1.sess cid).closed = true ↔ _
      by_cases hcr : (innerLoop w cid (b.write d)).2.2 = true
      · rw [if_pos hcr]
        exact iff_of_false (by rw [hcl']; simp) (by simp)
      · rw [if_neg hcr]
        exact ih (innerLoop w cid (b.write d)).1 cid
          (innerLoop w cid (b.write d)).2.1 hlen' hcl'

theorem innerF_stuck (fuel : Nat) (w : World) (cid : Nat) (b : Buffer)
    (hb : b.wf) (hs : extractStep b.getvalue = none) :
    (innerF fuel w cid b).1 = w ∧ (innerF fuel w cid b).2.2 = false ∧
    (innerF fuel w cid b).2.1.wf ∧
    (innerF fuel w cid b).2.1.getvalue = b.getvalue := by
  cases fuel with
  | zero => exact ⟨rfl, rfl, hb, rfl⟩
  | succ f =>
    have hn := read_full_message_none b hb hs
    rw [innerF]
    rw [if_pos hn.1]
    exact ⟨rfl, rfl, hn.2.2, hn.2.1⟩

theorem handle_run_ending_done (w : World) (cid : Nat) (b : Buffer)
    (rs : List (List Nat)) (h : (w.sess cid).endingDone = true) :
    handle_run w cid b rs = (w.closeWriter cid, b, RunStatus.finished) := by
  cases rs with
  | nil => rw [handle_run, if_pos h]
  | cons d rest => rw [handle_run, if_pos h]

theorem handle_run_eof_noop (w : World) (cid : Nat) (b : Buffer)
    (rest : List (List Nat)) (hend : (w.sess cid).endingDone = false)
    (hwf : b.wf) (hgv : b.getvalue = []) :
    ∃ b', handle_run w cid b ([] :: rest) = handle_run w cid b' rest ∧
      b'.wf ∧ b'.getvalue = [] := by
  have hs : extractStep b.getvalue = none := by
    rw [hgv]
    exact extractStep_none_of_short [] (by simp)
  have hstuck := innerF_stuck (b.write []).length w cid (b.write []) (by
    rw [show b.write [] = b from rfl]; exact hwf) (by
    rw [show b.write [] = b from rfl]; exact hs)
  have hstuck1 : (innerLoop w cid (b.write [])).1 = w := hstuck.1
  have hstuck2 : (innerLoop w cid (b.write [])).2.2 = false := hstuck.2.1
  have hstuckwf : (innerLoop w cid (b.write [])).2.1.wf := hstuck.2.2.1
  have hstuckgv : (innerLoop w cid (b.write [])).2.1.getvalue
      = (b.write []).getvalue := hstuck.2.2.2
  refine ⟨(innerLoop w cid (b.write [])).2.1, ?_, hstuckwf, by
    rw [hstuckgv, show b.write [] = b from rfl, hgv]⟩
  rw [handle_run, if_neg (by rw [hend]; simp)]
  show (if (innerLoop w cid (b.write [])).2.2 = true
      then ((innerLoop w cid (b.write [])).1, (innerLoop w cid (b.write [])).2.1,
        RunStatus.crashed)
      else handle_run (innerLoop w cid (b.write [])).1 cid
        (innerLoop w cid (b.write [])).2.1 rest) = _
  rw [if_neg (by rw [hstuck2]; simp), hstuck1]

/-- C7 (amended): the receive loop of `handle_client` does *not* exit on
end-of-stream.  (a) The writer is closed exactly when the run finishes via
the `ending` future; (b) a transport read returning empty bytes (EOF) is a
no-op iteration — the world is unchanged, the buffer still holds the same
(empty) content, and the loop polls again instead of exiting; (c) the loop
exits, closing the writer, exactly when the `ending` future is done at the
top of an iteration. -/
theorem loop_exits_only_on_ending :
    (∀ (rs : List (List Nat)) (w : World) (cid : Nat) (b : Buffer),
      cid < w.sessions.length → (w.sess cid).closed = false →
      (((handle_run w cid b rs).1.sess cid).closed = true ↔
        (handle_run w cid b rs).2.2 = RunStatus.finished)) ∧
    (∀ (w : World) (cid : Nat) (b : Buffer) (rest : List (List Nat)),
      (w.sess cid).endingDone = false → b.wf → b.getvalue = [] →
      ∃ b', handle_run w cid b ([] :: rest) = handle_run w cid b' rest ∧
        b'.wf ∧ b'.getvalue = []) ∧
    (∀ (w : World) (cid : Nat) (b : Buffer) (rs : List (List Nat)),
      (w.sess cid).endingDone = true →
      handle_run w cid b rs = (w.closeWriter cid, b, RunStatus.finished)) :=
  ⟨fun rs w cid b => handle_run_closed_iff rs w cid b,
    handle_run_eof_noop,
    handle_run_ending_done⟩

/-- C7 counterexample: a registered session whose ending future is not set
receives an end-of-stream read (empty bytes); the receive loop does *not*
exit — the run is again awaiting transport data, the world is unchanged and
the writer is not closed — refuting "the receive loop exits and the session
proceeds through teardown (writer closed)". -/
theorem eof_read_does_not_exit_loop :
    (handle_run ⟨[{ SessSt.fresh with nickname := some [97] }], [([97], 0)]⟩ 0
        (Buffer.init []) [[]]).2.2 = RunStatus.awaiting ∧
    ((handle_run ⟨[{ SessSt.fresh with nickname := some [97] }], [([97], 0)]⟩ 0
        (Buffer.init []) [[]]).1.sess 0).closed = false ∧
    (handle_run ⟨[{ SessSt.fresh with nickname := some [97] }], [([97], 0)]⟩ 0
        (Buffer.init []) [[]]).1
      = ⟨[{ SessSt.fresh with nickname := some [97] }], [([97], 0)]⟩ := by
  decide

/-- Witness for `loop_exits_only_on_ending` at a concrete world, buffer and
read sequence. -/
theorem loop_exits_only_on_ending_witness :
    ((((handle_run ⟨[SessSt.fresh], []⟩ 0 (Buffer.init []) [[]]).1.sess 0).closed = true ↔
      (handle_run ⟨[SessSt.fresh], []⟩ 0 (Buffer.init []) [[]]).2.2 = RunStatus.finished)) ∧
    (∃ b', handle_run ⟨[SessSt.fresh], []⟩ 0 (Buffer.init []) [[], []]
        = handle_run ⟨[SessSt.fresh], []⟩ 0 b' [[]] ∧ b'.wf ∧ b'.getvalue = []) ∧
    (handle_run ⟨[{ SessSt.fresh with endingDone := true }], []⟩ 0 (Buffer.init []) []
      = (World.closeWriter ⟨[{ SessSt.fresh with endingDone := true }], []⟩ 0,
          Buffer.init [], RunStatus.finished)) :=
  ⟨loop_exits_only_on_ending.1 [[]] ⟨[SessSt.fresh], []⟩ 0 (Buffer.init [])
      (by decide) (by decide),
    loop_exits_only_on_ending.2.1 ⟨[SessSt.fresh], []⟩ 0 (Buffer.init []) [[]]
      (by decide) (Buffer.init_wf []) (by decide),
    loop_exits_only_on_ending.2.2 ⟨[{ SessSt.fresh with endingDone := true }], []⟩ 0
      (Buffer.init []) [] (by decide)⟩

theorem deliver_spec (cids : List Nat) :
    ∀ (w : World) (m : List Nat), cids.Nodup →
      (∀ c ∈ cids, c < w.sessions.length) →
      (∀ c ∈ cids, ((deliver w cids m).sess c).outbox = (w.sess c).outbox ++ [m]) ∧
      (∀ c, c ∉ cids → (deliver w cids m).sess c = w.sess c) := by
  induction cids with
  | nil =>
    intro w m _ _
    exact ⟨fun c hc => absurd hc (List.not_mem_nil c), fun c _ => rfl⟩
  | cons x xs ih =>
    intro w m hnd hval
    have hxlen : x < w.sessions.length := hval x (List.mem_cons_self x xs)
    have hsendx : (w.send x m).sess x =
        { w.sess x with outbox := (w.sess x).outbox ++ [m] } := by
      rw [World.sess_send, if_pos ⟨rfl, hxlen⟩]
    have hsendne : ∀ c, c ≠ x → (w.send x m).sess c = w.sess c := by
      intro c hc
      rw [World.sess_send, if_neg (fun hx => hc hx.1)]
    have hxnotin : x ∉ xs := (List.nodup_cons.mp hnd).1
    have ihw := ih (w.send x m) m (List.nodup_cons.mp hnd).2 (by
      intro c hc
      have : c < w.sessions.length := hval c (List.mem_cons_of_mem x hc)
      have hl : (w.send x m).sessions.length = w.sessions.length :=
        World.setSess_length ..
      omega)
    have hstep : deliver w (x :: xs) m = deliver (w.send x m) xs m := rfl
    constructor
    · intro c hc
      rcases List.mem_cons.mp hc with rfl | hmem
      · rw [hstep, ihw.2 c hxnotin, hsendx]
      · by_cases hcx : c = x
        · subst hcx
          rw [hstep, ihw.2 c hxnotin, hsendx]
        · rw [hstep, ihw.1 c hmem, hsendne c hcx]
    · intro c hc
      have hcx : c ≠ x := fun h => hc (h ▸ List.mem_cons_self x xs)
      have hcxs : c ∉ xs := fun h => hc (List.mem_cons_of_mem x h)
      rw [hstep, ihw.2 c hcxs, hsendne c hcx]

/-- C2 (amended): for a registered session whose receiver set was not
explicitly overridden, `recv_text` writes exactly one encoded text frame —
`create_message(message, text)` — to the writer of *every*
currently-registered session, *including the sending session itself* (the
default receiver view `nicks_clients.values()` contains the sender; there is
no self-exclusion), and nothing to unregistered sessions. -/
theorem recv_text_delivers_to_all_registered (w : World) (cid : Nat)
    (msg : List Nat)
    (hrecv : (w.sess cid).receivers = none)
    (hlen : msg.length + 1 < 2 ^ 24)
    (hnd : (w.registry.map Prod.snd).Nodup)
    (hval : ∀ c ∈ w.registry.map Prod.snd, c < w.sessions.length) :
    ∃ w', recv_text w cid msg = some w' ∧
      w'.registry = w.registry ∧
      (∀ c ∈ w.registry.map Prod.snd,
        (w'.sess c).outbox = (w.sess c).outbox ++ [encodeFrame msg textByte]) ∧
      (∀ c, c ∉ w.registry.map Prod.snd → w'.sess c = w.sess c) := by
  by_cases hempty : w.registry.map Prod.snd = []
  · refine ⟨w, ?_, rfl, ?_, fun c _ => rfl⟩
    · simp only [recv_text, hrecv]
      rw [if_pos hempty]
    · intro c hc
      rw [hempty] at hc
      exact absurd hc (List.not_mem_nil c)
  · have hds := deliver_spec (w.registry.map Prod.snd) w
      (encodeFrame msg textByte) hnd hval
    refine ⟨deliver w (w.registry.map Prod.snd) (encodeFrame msg textByte),
      ?_, deliver_registry _ _ _, hds.1, hds.2⟩
    simp only [recv_text, hrecv]
    rw [if_neg hempty, show Server.create_message msg [textByte]
      = some (encodeFrame msg textByte) from create_message_encodeFrame msg 2 hlen]

/-- Witness for `recv_text_delivers_to_all_registered`: three registered
sessions `a`, `b`, `c`; session 0 (`a`) sends a text frame with the default
receiver set. -/
theorem recv_text_delivers_witness :
    ∃ w', recv_text
        ⟨[{ SessSt.fresh with nickname := some [97] },
          { SessSt.fresh with nickname := some [98] },
          { SessSt.fresh with nickname := some [99] }],
         [([97], 0), ([98], 1), ([99], 2)]⟩ 0 [104, 105] = some w' ∧
      w'.registry = [([97], 0), ([98], 1), ([99], 2)] ∧
      (∀ c ∈ ([([97], 0), ([98], 1), ([99], 2)] :
          List (List Nat × Nat)).map Prod.snd,
        (w'.sess c).outbox =
          ((⟨[{ SessSt.fresh with nickname := some [97] },
              { SessSt.fresh with nickname := some [98] },
              { SessSt.fresh with nickname := some [99] }],
             [([97], 0), ([98], 1), ([99], 2)]⟩ : World).sess c).outbox
            ++ [encodeFrame [104, 105] textByte]) ∧
      (∀ c, c ∉ ([([97], 0), ([98], 1), ([99], 2)] :
          List (List Nat × Nat)).map Prod.snd →
        w'.sess c = ((⟨[{ SessSt.fresh with nickname := some [97] },
            { SessSt.fresh with nickname := some [98] },
            { SessSt.fresh with nickname := some [99] }],
           [([97], 0), ([98], 1), ([99], 2)]⟩ : World).sess c)) :=
  recv_text_delivers_to_all_registered _ 0 [104, 105]
    (by decide) (by decide) (by decide) (by decide)

/-- C2 counterexample: with three registered sessions and the default
receiver set, handling a text frame from session 0 writes the encoded text
frame to session 0's *own* writer as well, refuting "writes nothing to the
sending session's own writer". -/
theorem recv_text_writes_to_sender :
    (recv_text
        ⟨[{ SessSt.fresh with nickname := some [97] },
          { SessSt.fresh with nickname := some [98] },
          { SessSt.fresh with nickname := some [99] }],
         [([97], 0), ([98], 1), ([99], 2)]⟩ 0 [104, 105]).map
        (fun w => (w.sess 0).outbox)
      = some [[0, 0, 3, 104, 105, 2]] := by
  decide

/-- Two fresh connections, before any handshake. -/
def flowW0 : World := ⟨[SessSt.fresh, SessSt.fresh], []⟩

/-- Session 0 completes `hello {nick=alice}`. -/
def flowW1 : World :=
  (handle_run flowW0 0 (Buffer.init []) [encodeFrame [97, 108, 105, 99, 101] 1]).1

/-- Session 1 completes `hello {nick=bob}` and then sends `active`. -/
def flowW2 : World :=
  (handle_run flowW1 1 (Buffer.init [])
    [encodeFrame [98, 111, 98] 1 ++ encodeFrame [] 0]).1

/-- `flowW2` with session 1's `nick` attribute set the way the repository's
unit test sets it (through the constructor). -/
def flowW2nick : World :=
  ⟨flowW2.sessions.set 1 { flowW2.sess 1 with nick := some [98, 111, 98] },
    flowW2.registry⟩

/-- C6 failing run: sessions register `alice` and `bob` via `hello`; `bob`
requests `active`.  The reply is the text frame for `"alice\nbob\n"` — the
requester's own nickname appears *unmarked*, because `recv_hello` stored the
nickname in the attribute `nickname` while `recv_active` reads `nick` (which
is still `None`, as the second and third conjuncts exhibit).  The final
conjunct shows the intended behaviour the repository's own unit test
exercises (constructing `Client(writer, ending, nick)` directly): with
`nick` set, the same request is answered with `"alice\nbob (you)\n"`. -/
theorem recv_active_unmarked_self_run :
    (flowW2.sess 1).outbox
        = [encodeFrame ([97, 108, 105, 99, 101] ++ [10] ++ [98, 111, 98] ++ [10])
            textByte] ∧
    (flowW2.sess 1).nick = none ∧
    (flowW2.sess 1).nickname = some [98, 111, 98] ∧
    (recv_active flowW2nick 1).map (fun w => ((w.sess 1).outbox).drop 1)
      = some [encodeFrame ([97, 108, 105, 99, 101] ++ [10] ++ [98, 111, 98]
          ++ youSuffix ++ [10]) textByte] := by
  decide

/-! ### Client delimited codec (`client/client/message.py`) -/

namespace ClientCodec

/-- `content.replace(b'\n', b'\\\n')` — the first replace in
`create_message`. -/
def replNl (l : List Nat) : List Nat :=
  l.flatMap (fun c => if c = 10 then [92, 10] else [c])

/-- `.replace(b'#', b'\\#')` — the second replace in `create_message`. -/
def replHash (l : List Nat) : List Nat :=
  l.flatMap (fun c => if c = 35 then [92, 35] else [c])

/-- The two replaces applied in `create_message`'s order: newlines first,
then markers. -/
def escapeContent (l : List Nat) : List Nat :=
  replHash (replNl l)

/-- `client/message.py` `create_message(**kwargs)`: for each
`(header, content)` pair a header line `b'#' + header + b'\n'` and an
escaped content line, then the terminating `b'#\n'`.  Section names are
Python identifiers (keyword names), hence nonempty and newline-free. -/
def create_message (fields : List (List Nat × List Nat)) : List Nat :=
  (fields.flatMap (fun p => (35 :: p.1 ++ [10]) ++ (escapeContent p.2 ++ [10])))
    ++ [35, 10]

/-- Split a byte string at newline boundaries; each line keeps its trailing
newline (this is how `reader.readline()` hands lines to `cut_message`). -/
def splitLinesAux : List Nat → List Nat → List (List Nat)
  | [], acc => if acc = [] then [] else [acc.reverse]
  | c :: rest, acc =>
    if c = 10 then (acc.reverse ++ [10]) :: splitLinesAux rest []
    else splitLinesAux rest (c :: acc)

def splitLines (l : List Nat) : List (List Nat) :=
  splitLinesAux l []

/-- `line.replace(b'\\#', b'#')`: left-to-right, non-overlapping scan. -/
def replEscHash : List Nat → List Nat
  | [] => []
  | [c] => [c]
  | c :: d :: rest =>
    if c = 92 ∧ d = 35 then 35 :: replEscHash rest
    else c :: replEscHash (d :: rest)

/-- The trailing-newline handling of `cut_message`'s inner loop: an escaped
newline `b'\\\n'` becomes a literal `b'\n'`, an unescaped one is removed. -/
def unescNl (l : List Nat) : List Nat :=
  if [92, 10].isSuffixOf l then l.take (l.length - 2) ++ [10]
  else l.take (l.length - 1)

/-- One content line as processed by `cut_message`:
`line.replace(b'\\#', b'#')`, then the trailing-newline handling. -/
def processLine (line : List Nat) : List Nat :=
  unescNl (replEscHash line)

/-- Python `line[1:-1]`. -/
def slice1m1 (l : List Nat) : List Nat :=
  (l.drop 1).take (l.length - 2)

/-- `sections[header] = body` on the insertion-ordered dict. -/
def insertSec (acc : List (List Nat × List Nat)) (k v : List Nat) :
    List (List Nat × List Nat) :=
  if acc.any (fun p => p.1 = k) then
    acc.map (fun p => if p.1 = k then (k, v) else p)
  else acc ++ [(k, v)]

/-- The nested loops of `cut_message` after the first header has been read:
collect processed content lines until a line starting with `b'#'`, store the
section, and continue with `line[1:-1]` as the next header, stopping when it
is empty.  `none` models the `NameError`/non-termination Python exhibits
when the line iterator is exhausted inside a section (never reached on
encoder output). -/
def cutGo : List (List Nat) → List Nat → List Nat → List (List Nat × List Nat) →
    Option (List (List Nat × List Nat))
  | [], _, _, _ => none
  | line :: rest, header, bodyAcc, acc =>
    if line.head? = some 35 then
      let acc2 := insertSec acc header bodyAcc
      let nh := slice1m1 line
      if nh = [] then some acc2
      else cutGo rest nh [] acc2
    else cutGo rest header (bodyAcc ++ processLine line) acc

/-- `client/message.py` `cut_message(msg_lines)`: read the first header from
`next(lines)[1:-1]` and run the section-collecting loop.  `none` models the
`StopIteration` on an empty iterator. -/
def cut_message (msgLines : List (List Nat)) :
    Option (List (List Nat × List Nat)) :=
  match msgLines with
  | [] => none
  | first :: rest =>
    let header := slice1m1 first
    if header = [] then some [] else cutGo rest header [] []

/-- The escaping of a single content byte (composition of the two replaces
on one byte, for backslash-free content). -/
def escByte (c : Nat) : List Nat :=
  if c = 10 then [92, 10] else if c = 35 then [92, 35] else [c]

/-- Prepend a unit to the first piece of a piece list. -/
def consHead (u : List Nat) : List (List Nat) → List (List Nat)
  | [] => [u]
  | p :: ps => (u ++ p) :: ps

/-- The lines into which an escaped content line splits: each escaped
newline ends a piece; the final piece ends with the unescaped newline that
`create_message` appends. -/
def pieces : List Nat → List (List Nat)
  | [] => [[10]]
  | c :: cs =>
    if c = 10 then [92, 10] :: pieces cs
    else consHead (escByte c) (pieces cs)

theorem escapeContent_nil : escapeContent [] = [] := rfl

theorem escapeContent_cons (c : Nat) (cs : List Nat) :
    escapeContent (c :: cs) = escByte c ++ escapeContent cs := by
  by_cases h10 : c = 10
  · subst h10
    simp [escapeContent, replNl, replHash, escByte]
  · by_cases h35 : c = 35
    · subst h35
      simp [escapeContent, replNl, replHash, escByte]
    · simp [escapeContent, replNl, replHash, escByte, h10, h35]

theorem splitLinesAux_unit (u : List Nat) :
    ∀ (x acc : List Nat), 10 ∉ u →
      splitLinesAux (u ++ x) acc = splitLinesAux x (u.reverse ++ acc) := by
  induction u with
  | nil => intro x acc _; rfl
  | cons c u' ih =>
    intro x acc hu
    have hc : ¬ c = 10 := fun h => hu (h ▸ List.mem_cons_self c u')
    show splitLinesAux (c :: (u' ++ x)) acc = _
    rw [splitLinesAux, if_neg hc, ih x (c :: acc) (fun h => hu (List.mem_cons_of_mem c h))]
    rw [List.reverse_cons, List.append_assoc]
    rfl

theorem splitLinesAux_flush (x b acc : List Nat) (hx : 10 ∉ x) :
    splitLinesAux (x ++ 10 :: b) acc
      = ((acc.reverse ++ x) ++ [10]) :: splitLinesAux b [] := by
  rw [splitLinesAux_unit x (10 :: b) acc hx, splitLinesAux, if_pos rfl,
    List.reverse_append, List.reverse_reverse]

theorem splitLinesAux_append_end10 (n : Nat) :
    ∀ (a acc b : List Nat), a.length ≤ n → a.getLast? = some 10 →
      splitLinesAux (a ++ b) acc = splitLinesAux a acc ++ splitLinesAux b [] := by
  induction n with
  | zero =>
    intro a acc b hlen hlast
    have : a = [] := List.eq_nil_of_length_eq_zero (by omega)
    rw [this] at hlast
    exact absurd hlast (by simp)
  | succ m ih =>
    intro a acc b hlen hlast
    match a with
    | [] => exact absurd hlast (by simp)
    | c :: rest =>
      have hlen' : rest.length ≤ m := by
        simp only [List.length_cons] at hlen
        omega
      by_cases hc : c = 10
      · subst hc
        show splitLinesAux (10 :: (rest ++ b)) acc = _
        rw [splitLinesAux, if_pos rfl,
          show splitLinesAux (10 :: rest) acc
            = (acc.reverse ++ [10]) :: splitLinesAux rest [] from by
              rw [splitLinesAux, if_pos rfl],
          List.cons_append]
        congr 1
        cases hrest : rest with
        | nil => simp [splitLinesAux]
        | cons r1 r2 =>
          have hlast' : rest.getLast? = some 10 := by
            rw [hrest]
            rw [hrest, List.getLast?_cons_cons] at hlast
            exact hlast
          rw [← hrest]
          exact ih rest [] b hlen' hlast'
      · have hrne : rest ≠ [] := by
          intro h
          subst h
          simp only [List.getLast?_singleton, Option.some_inj] at hlast
          exact hc hlast
        show splitLinesAux (c :: (rest ++ b)) acc = _
        rw [splitLinesAux, if_neg hc,
          show splitLinesAux (c :: rest) acc = splitLinesAux rest (c :: acc) from by
            rw [splitLinesAux, if_neg hc]]
        have hlast' : rest.getLast? = some 10 := by
          cases hrest : rest with
          | nil => exact absurd hrest hrne
          | cons r1 r2 =>
            rw [hrest, List.getLast?_cons_cons] at hlast
            exact hlast
        exact ih rest (c :: acc) b hlen' hlast'

theorem splitLines_append_end10 (a b : List Nat) (h : a.getLast? = some 10) :
    splitLines (a ++ b) = splitLines a ++ splitLines b :=
  splitLinesAux_append_end10 a.length a [] b (le_refl _) h

theorem consHead_ne_nil (u : List Nat) (S : List (List Nat)) :
    consHead u S ≠ [] := by
  cases S <;> simp [consHead]

theorem consHead_append (u v : List Nat) (S : List (List Nat)) :
    consHead (u ++ v) S = consHead u (consHead v S) := by
  cases S <;> simp [consHead]

theorem splitLinesAux_acc_cons (X : List Nat) :
    ∀ acc, acc ≠ [] →
      splitLinesAux X acc = consHead acc.reverse (splitLinesAux X []) := by
  induction X with
  | nil =>
    intro acc hacc
    rw [splitLinesAux, if_neg hacc]
    rfl
  | cons c rest ih =>
    intro acc hacc
    by_cases hc : c = 10
    · subst hc
      rw [splitLinesAux, if_pos rfl,
        show splitLinesAux (10 :: rest) [] = (List.reverse [] ++ [10]) ::
          splitLinesAux rest [] from by rw [splitLinesAux, if_pos rfl]]
      rfl
    · rw [splitLinesAux, if_neg hc, ih (c :: acc) (by simp),
        show splitLinesAux (c :: rest) [] = splitLinesAux rest [c] from by
          rw [splitLinesAux, if_neg hc],
        ih [c] (by simp)]
      rw [List.reverse_cons, consHead_append]
      rfl

theorem splitLines_unit_prepend (u X : List Nat) (hu : 10 ∉ u) (hne : u ≠ []) :
    splitLines (u ++ X) = consHead u (splitLines X) := by
  rw [splitLines, splitLinesAux_unit u X [] hu,
    splitLinesAux_acc_cons X (u.reverse ++ []) (by simp [hne]),
    List.append_nil, List.reverse_reverse]
  rfl

theorem escByte_ne_nil (c : Nat) : escByte c ≠ [] := by
  unfold escByte
  split
  · simp
  · split <;> simp

theorem escByte_no_nl (c : Nat) (h : c ≠ 10) : 10 ∉ escByte c := by
  unfold escByte
  rw [if_neg h]
  split
  · simp
  · simp only [List.mem_singleton]
    omega

theorem pieces_spec (c : List Nat) :
    splitLines (escapeContent c ++ [10]) = pieces c := by
  induction c with
  | nil => rfl
  | cons x cs ih =>
    rw [escapeContent_cons, List.append_assoc]
    by_cases h10 : x = 10
    · subst h10
      rw [show escByte 10 = [92, 10] from rfl]
      show splitLines (92 :: 10 :: (escapeContent cs ++ [10])) = _
      rw [splitLines, splitLinesAux, if_neg (by omega), splitLinesAux, if_pos rfl]
      rw [pieces, if_pos rfl, ← ih]
      rfl
    · rw [splitLines_unit_prepend (escByte x) _ (escByte_no_nl x h10)
        (escByte_ne_nil x), ih, pieces, if_neg h10]

theorem replEscHash_cons_ne92 (c : Nat) (x : List Nat) (h : c ≠ 92) :
    replEscHash (c :: x) = c :: replEscHash x := by
  cases x with
  | nil => rfl
  | cons d rest =>
    rw [replEscHash, if_neg (fun hc => h hc.1)]

theorem replEscHash_pair (rest : List Nat) :
    replEscHash (92 :: 35 :: rest) = 35 :: replEscHash rest := by
  rw [replEscHash, if_pos ⟨rfl, rfl⟩]

theorem replEscHash_ne_nil (l : List Nat) (h : l ≠ []) : replEscHash l ≠ [] := by
  match l with
  | [] => exact absurd rfl h
  | [c] => simp [replEscHash]
  | c :: d :: rest =>
    rw [replEscHash]
    split <;> simp

theorem suffix9210_append (d x : List Nat) (hx : x ≠ [])
    (h92 : d.getLast? ≠ some 92) :
    ([92, 10] <:+ (d ++ x)) ↔ ([92, 10] <:+ x) := by
  constructor
  · intro hsuf
    obtain ⟨t, ht⟩ := hsuf
    have hlen : t.length + 2 = d.length + x.length := by
      have h0 := congrArg List.length ht
      simp only [List.length_append, List.length_cons, List.length_nil] at h0
      omega
    by_cases hx2 : 2 ≤ x.length
    · have hdt : d.length ≤ t.length := by omega
      have htd : t.take d.length = d := by
        have h1 := congrArg (List.take d.length) ht
        rw [List.take_append_eq_append_take, List.take_append_eq_append_take,
          List.take_length, Nat.sub_self, List.take_zero, List.append_nil,
          Nat.sub_eq_zero_of_le hdt, List.take_zero, List.append_nil] at h1
        exact h1
      refine ⟨t.drop d.length, ?_⟩
      have hcat : d ++ (t.drop d.length ++ [92, 10]) = d ++ x := by
        rw [← ht]
        conv_rhs => rw [← List.take_append_drop d.length t]
        rw [htd, List.append_assoc]
      exact List.append_cancel_left hcat
    · obtain ⟨e, rfl⟩ : ∃ e, x = [e] := by
        cases x with
        | nil => exact absurd rfl hx
        | cons e x' =>
          cases x' with
          | nil => exact ⟨e, rfl⟩
          | cons f x'' => exact absurd (by simp) hx2
      have he : e = 10 := by
        have h0 := congrArg List.getLast? ht
        rw [show t ++ [92, 10] = (t ++ [92]) ++ [10] from
            (List.append_assoc t [92] [10]).symm,
          List.getLast?_concat, List.getLast?_concat] at h0
        exact (Option.some_inj.mp h0).symm
      have hd92 : d = t ++ [92] := by
        have ht' : (t ++ [92]) ++ [10] = d ++ [e] := by
          rw [List.append_assoc]
          exact ht
        rw [he] at ht'
        exact (List.append_cancel_right ht').symm
      exact absurd (by rw [hd92, List.getLast?_concat]) h92
  · intro hsuf
    obtain ⟨t, ht⟩ := hsuf
    exact ⟨d ++ t, by rw [List.append_assoc, ht]⟩

theorem unescNl_prepend (d x : List Nat) (hx : x ≠ [])
    (h92 : d.getLast? ≠ some 92) :
    unescNl (d ++ x) = d ++ unescNl x := by
  have hx1 : 1 ≤ x.length := List.length_pos.mpr hx
  unfold unescNl
  by_cases hsuf : [92, 10] <:+ x
  · have hsuf' : [92, 10] <:+ (d ++ x) := (suffix9210_append d x hx h92).mpr hsuf
    rw [if_pos (List.isSuffixOf_iff_suffix.mpr hsuf'),
      if_pos (List.isSuffixOf_iff_suffix.mpr hsuf)]
    have hx2 : 2 ≤ x.length := hsuf.length_le
    rw [List.length_append, List.take_append_eq_append_take,
      List.take_of_length_le (by omega : d.length ≤ d.length + x.length - 2),
      show d.length + x.length - 2 - d.length = x.length - 2 by omega,
      List.append_assoc]
  · have hsuf' : ¬ [92, 10] <:+ (d ++ x) :=
      fun hh => hsuf ((suffix9210_append d x hx h92).mp hh)
    rw [if_neg (fun hb => hsuf' (List.isSuffixOf_iff_suffix.mp hb)),
      if_neg (fun hb => hsuf (List.isSuffixOf_iff_suffix.mp hb)),
      List.length_append, List.take_append_eq_append_take,
      List.take_of_length_le (by omega : d.length ≤ d.length + x.length - 1),
      show d.length + x.length - 1 - d.length = x.length - 1 by omega]

theorem processLine_escByte (c : Nat) (p0 : List Nat) (h92 : c ≠ 92)
    (h10 : c ≠ 10) (hp0 : p0 ≠ []) :
    processLine (escByte c ++ p0) = c :: processLine p0 := by
  by_cases h35 : c = 35
  · subst h35
    have he : escByte 35 = [92, 35] := rfl
    rw [he]
    unfold processLine
    rw [show ([92, 35] : List Nat) ++ p0 = 92 :: 35 :: p0 from rfl, replEscHash_pair,
      show (35 :: replEscHash p0 : List Nat) = [35] ++ replEscHash p0 from rfl,
      unescNl_prepend [35] _ (replEscHash_ne_nil p0 hp0) (by simp)]
    rfl
  · have he : escByte c = [c] := by
      unfold escByte
      rw [if_neg h10, if_neg h35]
    rw [he]
    unfold processLine
    rw [show ([c] : List Nat) ++ p0 = c :: p0 from rfl,
      replEscHash_cons_ne92 c p0 h92,
      show (c :: replEscHash p0 : List Nat) = [c] ++ replEscHash p0 from rfl,
      unescNl_prepend [c] _ (replEscHash_ne_nil p0 hp0) (by simpa using h92)]
    rfl

theorem pieces_ne_nil (c : List Nat) : pieces c ≠ [] := by
  cases c with
  | nil => simp [pieces]
  | cons x cs =>
    rw [pieces]
    split
    · simp
    · exact consHead_ne_nil _ _

theorem pieces_elems (c : List Nat) (hc : 92 ∉ c) :
    ∀ p ∈ pieces c, p ≠ [] ∧ p.head? ≠ some 35 := by
  induction c with
  | nil =>
    intro p hp
    rw [pieces, List.mem_singleton] at hp
    subst hp
    exact ⟨by simp, by simp⟩
  | cons x cs ih =>
    intro p hp
    have hx92 : x ≠ 92 := fun h => hc (h ▸ List.mem_cons_self x cs)
    have hc' : 92 ∉ cs := fun h => hc (List.mem_cons_of_mem x h)
    rw [pieces] at hp
    by_cases h10 : x = 10
    · rw [if_pos h10] at hp
      rcases List.mem_cons.mp hp with rfl | hmem
      · exact ⟨by simp, by simp⟩
      · exact ih hc' p hmem
    · rw [if_neg h10] at hp
      obtain ⟨p0, ps, heq⟩ : ∃ p0 ps, pieces cs = p0 :: ps := by
        cases hpc : pieces cs with
        | nil => exact absurd hpc (pieces_ne_nil cs)
        | cons a b => exact ⟨a, b, rfl⟩
      rw [heq, show consHead (escByte x) (p0 :: ps)
        = (escByte x ++ p0) :: ps from rfl] at hp
      rcases List.mem_cons.mp hp with rfl | hmem
      · refine ⟨fun hh => escByte_ne_nil x (List.append_eq_nil.mp hh).1, ?_⟩
        by_cases h35 : x = 35
        · subst h35
          rw [show escByte 35 = [92, 35] from rfl]
          simp
        · rw [show escByte x = [x] from by unfold escByte; rw [if_neg h10, if_neg h35],
            List.singleton_append, List.head?_cons]
          simpa using h35
      · exact ih hc' p (heq ▸ List.mem_cons_of_mem p0 hmem)

theorem pieces_decode (c : List Nat) (hc : 92 ∉ c) :
    ((pieces c).map processLine).flatten = c := by
  induction c with
  | nil => decide
  | cons x cs ih =>
    have hx92 : x ≠ 92 := fun h => hc (h ▸ List.mem_cons_self x cs)
    have hc' : 92 ∉ cs := fun h => hc (List.mem_cons_of_mem x h)
    rw [pieces]
    by_cases h10 : x = 10
    · rw [if_pos h10, List.map_cons, List.flatten_cons,
        show processLine [92, 10] = [10] from by decide, ih hc', h10]
      rfl
    · obtain ⟨p0, ps, heq⟩ : ∃ p0 ps, pieces cs = p0 :: ps := by
        cases hpc : pieces cs with
        | nil => exact absurd hpc (pieces_ne_nil cs)
        | cons a b => exact ⟨a, b, rfl⟩
      have hp0 : p0 ≠ [] :=
        (pieces_elems cs hc' p0 (heq ▸ List.mem_cons_self p0 ps)).1
      rw [if_neg h10, heq, show consHead (escByte x) (p0 :: ps)
          = (escByte x ++ p0) :: ps from rfl,
        List.map_cons, List.flatten_cons,
        processLine_escByte x p0 hx92 h10 hp0, List.cons_append,
        show processLine p0 ++ (ps.map processLine).flatten
          = ((p0 :: ps).map processLine).flatten from by
            rw [List.map_cons, List.flatten_cons],
        ← heq, ih hc']

/-- The line sequence an encoded message splits into: a header line per
field, the content pieces, and the terminator line `b'#\n'`. -/
def encLines : List (List Nat × List Nat) → List (List Nat)
  | [] => [[35, 10]]
  | f :: fs => (35 :: f.1 ++ [10]) :: (pieces f.2 ++ encLines fs)

theorem create_message_cons (f : List Nat × List Nat)
    (fs : List (List Nat × List Nat)) :
    create_message (f :: fs)
      = (35 :: f.1 ++ [10]) ++ ((escapeContent f.2 ++ [10]) ++ create_message fs) := by
  simp [create_message, List.append_assoc]

theorem splitLines_header (h : List Nat) (hh : 10 ∉ h) :
    splitLines (35 :: h ++ [10]) = [35 :: h ++ [10]] := by
  have h35 : 10 ∉ (35 :: h) := by
    intro hm
    rcases List.mem_cons.mp hm with h1 | h2
    · omega
    · exact hh h2
  rw [show (35 :: h ++ [10] : List Nat) = (35 :: h) ++ 10 :: [] from rfl,
    splitLines, splitLinesAux_flush (35 :: h) [] [] h35]
  rfl

theorem slice1m1_header (h : List Nat) : slice1m1 (35 :: h ++ [10]) = h := by
  show ((35 :: (h ++ [10])).drop 1).take ((35 :: (h ++ [10])).length - 2) = h
  rw [show (35 :: (h ++ [10])).drop 1 = h ++ [10] from rfl,
    show (35 :: (h ++ [10])).length - 2 = h.length from by simp,
    List.take_append_eq_append_take, List.take_length, Nat.sub_self,
    List.take_zero, List.append_nil]

theorem splitLines_create (fields : List (List Nat × List Nat))
    (hf : ∀ p ∈ fields, 10 ∉ p.1) :
    splitLines (create_message fields) = encLines fields := by
  induction fields with
  | nil => rfl
  | cons f fs ih =>
    have h1 : 10 ∉ f.1 := hf f (List.mem_cons_self f fs)
    rw [create_message_cons,
      splitLines_append_end10 (35 :: f.1 ++ [10]) _
        (show ((35 :: f.1) ++ [10]).getLast? = some 10 from List.getLast?_concat _),
      splitLines_append_end10 (escapeContent f.2 ++ [10]) _ (List.getLast?_concat _),
      splitLines_header f.1 h1, pieces_spec f.2,
      ih (fun p hp => hf p (List.mem_cons_of_mem f hp))]
    rfl

theorem cutGo_content (pcs : List (List Nat)) :
    ∀ (rest : List (List Nat)) (header bodyAcc : List Nat)
      (acc : List (List Nat × List Nat)),
      (∀ p ∈ pcs, p.head? ≠ some 35) →
      cutGo (pcs ++ rest) header bodyAcc acc
        = cutGo rest header (bodyAcc ++ (pcs.map processLine).flatten) acc := by
  induction pcs with
  | nil =>
    intro rest h b acc _
    rw [List.nil_append, List.map_nil, List.flatten_nil, List.append_nil]
  | cons p pcs' ih =>
    intro rest h b acc hh
    rw [List.cons_append, cutGo, if_neg (hh p (List.mem_cons_self p pcs')),
      ih rest h (b ++ processLine p) acc
        (fun q hq => hh q (List.mem_cons_of_mem p hq)),
      List.map_cons, List.flatten_cons, List.append_assoc]

theorem cutGo_encLines :
    ∀ (fs : List (List Nat × List Nat)) (h c : List Nat)
      (acc : List (List Nat × List Nat)),
      92 ∉ c → (∀ p ∈ fs, p.1 ≠ [] ∧ 92 ∉ p.2) →
      cutGo (pieces c ++ encLines fs) h [] acc
        = some (List.foldl (fun a p => insertSec a p.1 p.2) (insertSec acc h c) fs) := by
  intro fs
  induction fs with
  | nil =>
    intro h c acc hc _
    rw [cutGo_content (pieces c) _ h [] acc
        (fun p hp => (pieces_elems c hc p hp).2),
      List.nil_append, pieces_decode c hc,
      show encLines [] = [[35, 10]] from rfl, cutGo,
      if_pos (show ([35, 10] : List Nat).head? = some 35 from rfl)]
    show (if slice1m1 [35, 10] = [] then some (insertSec acc h c)
        else cutGo [] (slice1m1 [35, 10]) [] (insertSec acc h c)) = _
    rw [if_pos (show slice1m1 [35, 10] = [] from rfl)]
    rfl
  | cons f fs' ih =>
    intro h c acc hc hfs
    rw [cutGo_content (pieces c) _ h [] acc
        (fun p hp => (pieces_elems c hc p hp).2),
      List.nil_append, pieces_decode c hc,
      show encLines (f :: fs') = (35 :: f.1 ++ [10]) :: (pieces f.2 ++ encLines fs')
        from rfl,
      cutGo]
    have hhead : (35 :: f.1 ++ [10]).head? = some 35 := rfl
    rw [if_pos hhead]
    show (if slice1m1 (35 :: f.1 ++ [10]) = [] then some (insertSec acc h c)
        else cutGo (pieces f.2 ++ encLines fs') (slice1m1 (35 :: f.1 ++ [10])) []
          (insertSec acc h c)) = _
    rw [slice1m1_header f.1, if_neg (hfs f (List.mem_cons_self f fs')).1,
      ih f.1 f.2 (insertSec acc h c) (hfs f (List.mem_cons_self f fs')).2
        (fun p hp => hfs p (List.mem_cons_of_mem f hp)),
      List.foldl_cons]

theorem insertSec_fresh (acc : List (List Nat × List Nat)) (k v : List Nat)
    (h : ∀ p ∈ acc, p.1 ≠ k) : insertSec acc k v = acc ++ [(k, v)] := by
  unfold insertSec
  rw [if_neg]
  simp only [List.any_eq_true, decide_eq_true_eq, not_exists, not_and]
  exact fun p hp => h p hp

theorem foldl_insertSec (fields : List (List Nat × List Nat)) :
    ∀ (acc : List (List Nat × List Nat)),
      (∀ p ∈ fields, ∀ q ∈ acc, q.1 ≠ p.1) →
      (fields.map Prod.fst).Nodup →
      List.foldl (fun a p => insertSec a p.1 p.2) acc fields = acc ++ fields := by
  induction fields with
  | nil =>
    intro acc _ _
    rw [List.foldl_nil, List.append_nil]
  | cons f fs ih =>
    intro acc hdisj hnd
    rw [List.foldl_cons,
      insertSec_fresh acc f.1 f.2 (fun q hq => hdisj f (List.mem_cons_self f fs) q hq)]
    have hfst : f.1 ∉ fs.map Prod.fst := by
      rw [List.map_cons, List.nodup_cons] at hnd
      exact hnd.1
    rw [ih (acc ++ [(f.1, f.2)]) ?_ ?_]
    · rw [List.append_assoc]
      rfl
    · intro p hp q hq
      rcases List.mem_append.mp hq with hq1 | hq2
      · exact hdisj p (List.mem_cons_of_mem f hp) q hq1
      · rw [List.mem_singleton.mp hq2]
        intro hcontra
        exact hfst (hcontra ▸ List.mem_map_of_mem Prod.fst hp)
    · rw [List.map_cons, List.nodup_cons] at hnd
      exact hnd.2

/-- C3 (amended): round-trip of the client codec.  For every mapping of
section names to contents in which section names are nonempty and
newline-free (both guaranteed for Python keyword names) and section contents
contain no escape byte `0x5C` (backslash), encoding with `create_message`
and decoding with `cut_message` after splitting the frame at newline
boundaries returns exactly the original mapping — including contents that
are empty, all marker bytes `'#'`, all newlines, or any mix of other byte
values.  Contents containing a backslash need not survive
(cf. `client_roundtrip_fails_on_backslash`): the escaper never escapes the
escape byte itself. -/
theorem client_codec_roundtrip (fields : List (List Nat × List Nat))
    (hks : ∀ p ∈ fields, p.1 ≠ [] ∧ 10 ∉ p.1)
    (hvs : ∀ p ∈ fields, 92 ∉ p.2)
    (hnd : (fields.map Prod.fst).Nodup) :
    cut_message (splitLines (create_message fields)) = some fields := by
  rw [splitLines_create fields (fun p hp => (hks p hp).2)]
  cases fields with
  | nil => rfl
  | cons f fs =>
    rw [show encLines (f :: fs) = (35 :: f.1 ++ [10]) :: (pieces f.2 ++ encLines fs)
        from rfl,
      cut_message, slice1m1_header f.1,
      if_neg (hks f (List.mem_cons_self f fs)).1,
      cutGo_encLines fs f.1 f.2 [] (hvs f (List.mem_cons_self f fs))
        (fun p hp => ⟨(hks p (List.mem_cons_of_mem f hp)).1,
          hvs p (List.mem_cons_of_mem f hp)⟩),
      insertSec_fresh [] f.1 f.2 (by simp),
      List.nil_append,
      foldl_insertSec fs [(f.1, f.2)] ?_ ?_]
    · rfl
    · intro p hp q hq
      rw [List.mem_singleton.mp hq]
      rw [List.map_cons, List.nodup_cons] at hnd
      intro hcontra
      exact hnd.1 (hcontra ▸ List.mem_map_of_mem Prod.fst hp)
    · rw [List.map_cons, List.nodup_cons] at hnd
      exact hnd.2

/-- Witness for `client_codec_roundtrip`: two sections
(`type ↦ "text"`, `content ↦ "hi\n##"`) whose second content mixes a
newline and marker bytes. -/
theorem client_codec_roundtrip_witness :
    cut_message (splitLines (create_message
      [([116, 121, 112, 101], [116, 101, 120, 116]),
       ([99, 111, 110, 116, 101, 110, 116], [104, 105, 10, 35, 35])]))
      = some [([116, 121, 112, 101], [116, 101, 120, 116]),
         ([99, 111, 110, 116, 101, 110, 116], [104, 105, 10, 35, 35])] :=
  client_codec_roundtrip _ (by decide) (by decide) (by decide)

/-- C3 counterexample: the single-section mapping `a ↦ b'\'` (one backslash)
decodes to `a ↦ b'\n'` after encoding — the escaper does not escape the
escape byte, so the claimed round-trip for contents of *any* byte values
fails. -/
theorem client_roundtrip_fails_on_backslash :
    cut_message (splitLines (create_message [([97], [92])])) = some [([97], [10])] ∧
    cut_message (splitLines (create_message [([97], [92])])) ≠ some [([97], [92])] := by
  decide

end ClientCodec

end Chat
